import Mathlib

/-!
Verification development for the HARK portfolio-choice period solver
(`HARK/ConsumptionSaving/ConsPortfolioModel.py`).

The source is shallowly embedded over exact rationals.  External
collaborators that the spec declares out of scope (the CRRA utility
primitive with real exponents, the interpolation library, the generic
expectation operator) are embedded as follows:

* the expectation operator is a probability-weighted sum over a finite
  list of (weight, atom) pairs, exactly as the spec's contract states;
* real-exponent powers such as x^(-CRRA), x^(1-CRRA), x^(1/CRRA) are
  abstract function parameters of the model (they are shared verbatim by
  the code paths under comparison, so no algebraic property of them is
  assumed unless stated);
* piecewise-linear interpolants are embedded concretely over lists of
  (node, value) pairs; the HARK decay extrapolation toward a limiting
  line is modelled from the spec with an abstract decay-weight function.

Python floats are modelled as exact rationals; division by zero is the
Lean convention x / 0 = 0.
-/

namespace ConsPortfolio

/-- An atom of the income shock distribution `IncShkDstn`: a permanent
income shock and a transitory income shock. -/
structure IncShk where
  perm : ℚ
  tran : ℚ
deriving Repr, DecidableEq

/-- An atom of the joint shock distribution `ShockDstn`: permanent income
shock, transitory income shock, and risky return. -/
structure JointShk where
  perm : ℚ
  tran : ℚ
  risky : ℚ
deriving Repr, DecidableEq

/-- Modelled from the spec: the repository's
`HARK.distribution.expected` is not under src; its documented contract
is the probability-weighted sum of a function over the discrete atoms of
a distribution. -/
def expectedL {α : Type} (dstn : List (ℚ × α)) (f : α → ℚ) : ℚ :=
  (dstn.map (fun p => p.1 * f p.2)).sum

/-- The independent product of the income-shock and risky-return
distributions, pairing every income atom with every return atom and
multiplying their probabilities. -/
def prodDstn : List (ℚ × IncShk) → List (ℚ × ℚ) → List (ℚ × JointShk)
  | [], _ => []
  | p :: t, risky =>
      risky.map (fun q => (p.1 * q.1, ⟨p.2.perm, p.2.tran, q.2⟩)) ++ prodDstn t risky

theorem expectedL_nil {α : Type} (f : α → ℚ) : expectedL [] f = 0 := rfl

theorem expectedL_cons {α : Type} (p : ℚ × α) (t : List (ℚ × α)) (f : α → ℚ) :
    expectedL (p :: t) f = p.1 * f p.2 + expectedL t f := rfl

theorem expectedL_append {α : Type} (l₁ l₂ : List (ℚ × α)) (f : α → ℚ) :
    expectedL (l₁ ++ l₂) f = expectedL l₁ f + expectedL l₂ f := by
  induction l₁ with
  | nil => simp [expectedL_nil, expectedL]
  | cons p t ih => simp [expectedL_cons, ih]; ring

theorem expectedL_congr {α : Type} {d : List (ℚ × α)} {f g : α → ℚ}
    (h : ∀ a, f a = g a) : expectedL d f = expectedL d g := by
  unfold expectedL
  congr 1
  apply List.map_congr_left
  intro p _
  rw [h]

theorem expectedL_mul_left {α : Type} (d : List (ℚ × α)) (c : ℚ) (f : α → ℚ) :
    expectedL d (fun a => c * f a) = c * expectedL d f := by
  induction d with
  | nil => simp [expectedL_nil]
  | cons p t ih => simp [expectedL_cons, ih]; ring

theorem expectedL_add {α : Type} (d : List (ℚ × α)) (f g : α → ℚ) :
    expectedL d (fun a => f a + g a) = expectedL d f + expectedL d g := by
  induction d with
  | nil => simp [expectedL_nil]
  | cons p t ih => simp [expectedL_cons, ih]; ring

theorem expectedL_zero {α : Type} (d : List (ℚ × α)) :
    expectedL d (fun _ => (0 : ℚ)) = 0 := by
  induction d with
  | nil => rfl
  | cons p t ih => rw [expectedL_cons, ih]; ring

theorem expectedL_map_scale {α β : Type} (d : List (ℚ × α)) (c : ℚ) (g : α → β)
    (f : β → ℚ) :
    expectedL (d.map (fun q => (c * q.1, g q.2))) f =
      c * expectedL d (fun a => f (g a)) := by
  induction d with
  | nil => simp [expectedL_nil]
  | cons p t ih => simp [expectedL_cons, ih]; ring

/-- Expectation over the independent product distribution is the iterated
expectation: income shocks outside, risky returns inside. -/
theorem expectedL_prodDstn (inc : List (ℚ × IncShk)) (risky : List (ℚ × ℚ))
    (f : JointShk → ℚ) :
    expectedL (prodDstn inc risky) f =
      expectedL inc (fun i => expectedL risky (fun r => f ⟨i.perm, i.tran, r⟩)) := by
  induction inc with
  | nil => simp [prodDstn, expectedL_nil]
  | cons p t ih =>
      rw [prodDstn, expectedL_append, ih, expectedL_cons]
      congr 1
      exact expectedL_map_scale risky p.1 (fun r => ⟨p.2.perm, p.2.tran, r⟩) f

/-- Finite double expectations commute. -/
theorem expectedL_swap {α β : Type} (d₁ : List (ℚ × α)) (d₂ : List (ℚ × β))
    (f : α → β → ℚ) :
    expectedL d₁ (fun a => expectedL d₂ (fun b => f a b)) =
      expectedL d₂ (fun b => expectedL d₁ (fun a => f a b)) := by
  induction d₁ with
  | nil =>
      rw [expectedL_nil, show (expectedL d₂ fun b => expectedL [] fun a => f a b)
        = expectedL d₂ (fun _ => (0 : ℚ)) from expectedL_congr (fun _ => rfl),
        expectedL_zero]
  | cons p t ih =>
      rw [expectedL_cons, ih,
        show (expectedL d₂ fun b => expectedL (p :: t) fun a => f a b)
          = expectedL d₂ (fun b => p.1 * f p.2 b + expectedL t fun a => f a b)
          from expectedL_congr (fun _ => rfl),
        expectedL_add, expectedL_mul_left]

/-!
## The two expectation paths of `solve_one_period_ConsPortfolio`

The solver parameters and next-period solution objects that both code
paths consume.  The real-exponent powers and next-period interpolants are
external objects; they enter the embedding as opaque rational functions.
-/

/-- Scalar parameters and next-period functions shared by both
computational paths of the period solver. -/
structure SolverParams where
  DiscFacEff : ℚ
  Rfree : ℚ
  PermGroFac : ℚ
  AdjustPrb : ℚ
  powNegCRRA : ℚ → ℚ
  pow1mCRRA : ℚ → ℚ
  vPfuncAdjNext : ℚ → ℚ
  dvdmFuncFxdNext : ℚ → ℚ → ℚ
  dvdsFuncFxdNext : ℚ → ℚ → ℚ
  vFuncAdjNext : ℚ → ℚ
  vFuncFxdNext : ℚ → ℚ → ℚ

/-- `calc_mNrm_next` of the independent path: market resources next
period from bank balances `b` and the income shock `S`. -/
def calc_mNrm_nextI (P : SolverParams) (S : IncShk) (b : ℚ) : ℚ :=
  b / (S.perm * P.PermGroFac) + S.tran

/-- `calc_dvdm_next` of the independent path: realized marginal value of
market resources next period, combined across the adjust/fixed regimes by
the adjustment probability. -/
def calc_dvdm_next (P : SolverParams) (S : IncShk) (b z : ℚ) : ℚ :=
  let mNrm_next := calc_mNrm_nextI P S b
  let dvdmAdj_next := P.vPfuncAdjNext mNrm_next
  let dvdm_next :=
    if P.AdjustPrb < 1 then
      P.AdjustPrb * dvdmAdj_next +
        (1 - P.AdjustPrb) * P.dvdmFuncFxdNext mNrm_next z
    else dvdmAdj_next
  P.powNegCRRA (S.perm * P.PermGroFac) * dvdm_next

/-- `calc_dvds_next` of the independent path: realized marginal value of
the risky share next period (zero in the adjust regime). -/
def calc_dvds_next (P : SolverParams) (S : IncShk) (b z : ℚ) : ℚ :=
  let mNrm_next := calc_mNrm_nextI P S b
  let dvdsAdj_next : ℚ := 0
  let dvds_next :=
    if P.AdjustPrb < 1 then
      P.AdjustPrb * dvdsAdj_next +
        (1 - P.AdjustPrb) * P.dvdsFuncFxdNext mNrm_next z
    else dvdsAdj_next
  P.pow1mCRRA (S.perm * P.PermGroFac) * dvds_next

/-- `calc_v_intermed` of the independent path: realized value next
period, combined across regimes by the adjustment probability. -/
def calc_v_intermed (P : SolverParams) (S : IncShk) (b z : ℚ) : ℚ :=
  let mNrm_next := calc_mNrm_nextI P S b
  let vAdj_next := P.vFuncAdjNext mNrm_next
  let v_next :=
    if P.AdjustPrb < 1 then
      P.AdjustPrb * vAdj_next + (1 - P.AdjustPrb) * P.vFuncFxdNext mNrm_next z
    else vAdj_next
  P.pow1mCRRA (S.perm * P.PermGroFac) * v_next

/-- The exact intermediate marginal value of bank balances
(`dvdb_intermed` before its interpolation): the expectation of
`calc_dvdm_next` over the income shock distribution. -/
def dvdb_exact (P : SolverParams) (inc : List (ℚ × IncShk)) (b z : ℚ) : ℚ :=
  expectedL inc (fun S => calc_dvdm_next P S b z)

/-- The exact intermediate marginal value of the risky share
(`dvds_intermed` before its interpolation). -/
def dvds_intermed_exact (P : SolverParams) (inc : List (ℚ × IncShk)) (b z : ℚ) : ℚ :=
  expectedL inc (fun S => calc_dvds_next P S b z)

/-- The exact intermediate value (`v_intermed` before its
interpolation). -/
def v_intermed_exact (P : SolverParams) (inc : List (ℚ × IncShk)) (b z : ℚ) : ℚ :=
  expectedL inc (fun S => calc_v_intermed P S b z)

/-- Independent path, second stage: end-of-period marginal value of
assets, integrating the intermediate function `dvdbF` (the interpolant
`dvdbFunc_intermed`) over the risky return distribution. -/
def EndOfPrd_dvda_indep (P : SolverParams) (risky : List (ℚ × ℚ))
    (dvdbF : ℚ → ℚ → ℚ) (a z : ℚ) : ℚ :=
  P.DiscFacEff * expectedL risky (fun S =>
    let Rxs := S - P.Rfree
    let Rport := P.Rfree + z * Rxs
    let bNrm_next := Rport * a
    Rport * dvdbF bNrm_next z)

/-- Independent path, second stage: end-of-period marginal value of the
risky share, using the intermediate interpolants `dvdbF` and `dvdsF`. -/
def EndOfPrd_dvds_indep (P : SolverParams) (risky : List (ℚ × ℚ))
    (dvdbF dvdsF : ℚ → ℚ → ℚ) (a z : ℚ) : ℚ :=
  P.DiscFacEff * expectedL risky (fun S =>
    let Rxs := S - P.Rfree
    let Rport := P.Rfree + z * Rxs
    let bNrm_next := Rport * a
    Rxs * a * dvdbF bNrm_next z + dvdsF bNrm_next z)

/-- Independent path, second stage: end-of-period value, using the
intermediate value interpolant `vF`. -/
def EndOfPrd_v_indep (P : SolverParams) (risky : List (ℚ × ℚ))
    (vF : ℚ → ℚ → ℚ) (a z : ℚ) : ℚ :=
  P.DiscFacEff * expectedL risky (fun S =>
    let Rxs := S - P.Rfree
    let Rport := P.Rfree + z * Rxs
    let bNrm_next := Rport * a
    vF bNrm_next z)

/-- `calc_mNrm_next` of the joint path. -/
def calc_mNrm_nextJ (P : SolverParams) (S : JointShk) (a z : ℚ) : ℚ :=
  let Rxs := S.risky - P.Rfree
  let Rport := P.Rfree + z * Rxs
  let bNrm_next := Rport * a
  bNrm_next / (S.perm * P.PermGroFac) + S.tran

/-- Joint path: end-of-period marginal value of assets (the first
component of `calc_EndOfPrd_dvdx`), integrating the full joint shock
distribution in one pass. -/
def EndOfPrd_dvda_joint (P : SolverParams) (shock : List (ℚ × JointShk))
    (a z : ℚ) : ℚ :=
  P.DiscFacEff * expectedL shock (fun S =>
    let mNrm_next := calc_mNrm_nextJ P S a z
    let Rxs := S.risky - P.Rfree
    let Rport := P.Rfree + z * Rxs
    let dvdmAdj_next := P.vPfuncAdjNext mNrm_next
    let dvdm_next :=
      if P.AdjustPrb < 1 then
        P.AdjustPrb * dvdmAdj_next +
          (1 - P.AdjustPrb) * P.dvdmFuncFxdNext mNrm_next z
      else dvdmAdj_next
    Rport * P.powNegCRRA (S.perm * P.PermGroFac) * dvdm_next)

/-- Joint path: end-of-period marginal value of the risky share (the
second component of `calc_EndOfPrd_dvdx`). -/
def EndOfPrd_dvds_joint (P : SolverParams) (shock : List (ℚ × JointShk))
    (a z : ℚ) : ℚ :=
  P.DiscFacEff * expectedL shock (fun S =>
    let mNrm_next := calc_mNrm_nextJ P S a z
    let Rxs := S.risky - P.Rfree
    let dvdmAdj_next := P.vPfuncAdjNext mNrm_next
    let dvdsAdj_next : ℚ := 0
    let dvdm_next :=
      if P.AdjustPrb < 1 then
        P.AdjustPrb * dvdmAdj_next +
          (1 - P.AdjustPrb) * P.dvdmFuncFxdNext mNrm_next z
      else dvdmAdj_next
    let dvds_next :=
      if P.AdjustPrb < 1 then
        P.AdjustPrb * dvdsAdj_next +
          (1 - P.AdjustPrb) * P.dvdsFuncFxdNext mNrm_next z
      else dvdsAdj_next
    Rxs * a * P.powNegCRRA (S.perm * P.PermGroFac) * dvdm_next +
      P.pow1mCRRA (S.perm * P.PermGroFac) * dvds_next)

/-- Joint path: end-of-period value (`calc_EndOfPrd_v`). -/
def EndOfPrd_v_joint (P : SolverParams) (shock : List (ℚ × JointShk))
    (a z : ℚ) : ℚ :=
  P.DiscFacEff * expectedL shock (fun S =>
    let mNrm_next := calc_mNrm_nextJ P S a z
    let vAdj_next := P.vFuncAdjNext mNrm_next
    let v_next :=
      if P.AdjustPrb < 1 then
        P.AdjustPrb * vAdj_next +
          (1 - P.AdjustPrb) * P.vFuncFxdNext mNrm_next z
      else vAdj_next
    P.pow1mCRRA (S.perm * P.PermGroFac) * v_next)

/-- C1: given the same discretized shock representation, with `ShockDstn`
the independent product of `IncShkDstn` and `RiskyDstn`, the same
next-period solution and parameters, and with the intermediate
interpolants of the independent fast path evaluating exactly (i.e. up to
the interpolation layer, which is the only numerical difference between
the two paths), the independent path and the joint path produce equal
end-of-period marginal-value-of-assets, marginal-value-of-share, and
value arrays at every asset/share point. -/
theorem C1_mode_equivalence
    (P : SolverParams) (inc : List (ℚ × IncShk)) (risky : List (ℚ × ℚ))
    (shock : List (ℚ × JointShk)) (dvdbF dvdsF vF : ℚ → ℚ → ℚ)
    (hshock : shock = prodDstn inc risky)
    (hdvdb : ∀ b z, dvdbF b z = dvdb_exact P inc b z)
    (hdvds : ∀ b z, dvdsF b z = dvds_intermed_exact P inc b z)
    (hv : ∀ b z, vF b z = v_intermed_exact P inc b z)
    (a z : ℚ) :
    EndOfPrd_dvda_indep P risky dvdbF a z = EndOfPrd_dvda_joint P shock a z ∧
    EndOfPrd_dvds_indep P risky dvdbF dvdsF a z = EndOfPrd_dvds_joint P shock a z ∧
    EndOfPrd_v_indep P risky vF a z = EndOfPrd_v_joint P shock a z := by
  subst hshock
  refine ⟨?_, ?_, ?_⟩
  · unfold EndOfPrd_dvda_indep EndOfPrd_dvda_joint
    rw [expectedL_prodDstn, expectedL_swap]
    congr 1
    refine expectedL_congr (fun R => ?_)
    simp only [hdvdb, dvdb_exact]
    rw [← expectedL_mul_left]
    refine expectedL_congr (fun S => ?_)
    simp only [calc_dvdm_next, calc_mNrm_nextI, calc_mNrm_nextJ]
    ring
  · unfold EndOfPrd_dvds_indep EndOfPrd_dvds_joint
    rw [expectedL_prodDstn, expectedL_swap]
    congr 1
    refine expectedL_congr (fun R => ?_)
    simp only [hdvdb, hdvds, dvdb_exact, dvds_intermed_exact]
    rw [← expectedL_mul_left, ← expectedL_add]
    refine expectedL_congr (fun S => ?_)
    simp only [calc_dvdm_next, calc_dvds_next, calc_mNrm_nextI, calc_mNrm_nextJ]
    ring
  · unfold EndOfPrd_v_indep EndOfPrd_v_joint
    rw [expectedL_prodDstn, expectedL_swap]
    congr 1
    refine expectedL_congr (fun R => ?_)
    simp only [hv, v_intermed_exact]
    refine expectedL_congr (fun S => ?_)
    simp only [calc_v_intermed, calc_mNrm_nextI, calc_mNrm_nextJ]

/-- Concrete parameters for exercising the mode-equivalence theorem. -/
def c1P : SolverParams :=
  ⟨9/10, 1, 1, 1/2,
   fun x => x, fun x => x + 1,
   fun m => 2 * m + 1, fun m s => m + s, fun m s => m - s,
   fun m => m * m, fun m s => m * s⟩

/-- Concrete two-atom income shock distribution. -/
def c1inc : List (ℚ × IncShk) := [(1/2, ⟨1, 1⟩), (1/2, ⟨2, 3⟩)]

/-- Concrete two-atom risky return distribution. -/
def c1risky : List (ℚ × ℚ) := [(1/3, 1/2), (2/3, 2)]

theorem C1_mode_equivalence_witness :
    (prodDstn c1inc c1risky = prodDstn c1inc c1risky ∧
      (∀ b z, dvdb_exact c1P c1inc b z = dvdb_exact c1P c1inc b z)) ∧
    (EndOfPrd_dvda_indep c1P c1risky (dvdb_exact c1P c1inc) 2 (1/2) =
        EndOfPrd_dvda_joint c1P (prodDstn c1inc c1risky) 2 (1/2) ∧
      EndOfPrd_dvds_indep c1P c1risky (dvdb_exact c1P c1inc)
          (dvds_intermed_exact c1P c1inc) 2 (1/2) =
        EndOfPrd_dvds_joint c1P (prodDstn c1inc c1risky) 2 (1/2) ∧
      EndOfPrd_v_indep c1P c1risky (v_intermed_exact c1P c1inc) 2 (1/2) =
        EndOfPrd_v_joint c1P (prodDstn c1inc c1risky) 2 (1/2)) :=
  ⟨⟨rfl, fun _ _ => rfl⟩,
    C1_mode_equivalence c1P c1inc c1risky (prodDstn c1inc c1risky)
      (dvdb_exact c1P c1inc) (dvds_intermed_exact c1P c1inc)
      (v_intermed_exact c1P c1inc) rfl
      (fun _ _ => rfl) (fun _ _ => rfl) (fun _ _ => rfl) 2 (1/2)⟩

/-!
## Piecewise-linear interpolation

Modelled from the spec: the interpolation library is an external
collaborator ("1-D piecewise-linear (with configurable lower/upper
extrapolation slope)").  `interpPts` interpolates linearly over a list of
(node, value) pairs whose nodes are increasing, and extrapolates linearly
beyond either end by extending the boundary segment.  `interpPtsLimit`
models HARK LinearInterp with an intercept/slope limit: beyond the top
node the value tends from the top value toward the limiting line, with
the decay profile abstracted as a weight function `w`.
-/

/-- Modelled from the spec: the repository's `HARK.interpolation`
`LinearInterp` is not under src; the spec describes it as a 1-D
piecewise-linear interpolant with configurable extrapolation.  Between
nodes the value is the linear interpolation on the bracketing segment;
beyond either end the boundary segment is extended linearly. -/
def interpPts : List (ℚ × ℚ) → ℚ → ℚ
  | [(x0, y0), (x1, y1)], x => y0 + (x - x0) * (y1 - y0) / (x1 - x0)
  | (x0, y0) :: (x1, y1) :: p2 :: t, x =>
      if x ≤ x1 then y0 + (x - x0) * (y1 - y0) / (x1 - x0)
      else interpPts ((x1, y1) :: p2 :: t) x
  | [(_, y0)], _ => y0
  | [], _ => 0

theorem interpPts_nil (x : ℚ) : interpPts [] x = 0 := rfl

theorem interpPts_single (x0 y0 x : ℚ) : interpPts [(x0, y0)] x = y0 := rfl

theorem interpPts_pair (x0 y0 x1 y1 x : ℚ) :
    interpPts [(x0, y0), (x1, y1)] x = y0 + (x - x0) * (y1 - y0) / (x1 - x0) := rfl

theorem interpPts_cons (x0 y0 x1 y1 : ℚ) (p2 : ℚ × ℚ) (t : List (ℚ × ℚ)) (x : ℚ) :
    interpPts ((x0, y0) :: (x1, y1) :: p2 :: t) x =
      if x ≤ x1 then y0 + (x - x0) * (y1 - y0) / (x1 - x0)
      else interpPts ((x1, y1) :: p2 :: t) x := rfl

/-- Modelled from the spec: HARK LinearInterp with intercept_limit and
slope_limit (used for the continuous-mode risky share function) is not
under src; per the spec the function tends to the limiting line
`intercept + slope * x` beyond the top node, so the value there is a mix
of the top node value and the limiting line, with the decay profile
abstracted as the weight `w x`. -/
def interpPtsLimit (pts : List (ℚ × ℚ)) (intercept slope : ℚ) (w : ℚ → ℚ)
    (x : ℚ) : ℚ :=
  let xn := (pts.map Prod.fst).getLastD 0
  if x ≤ xn then interpPts pts x
  else (1 - w x) * (pts.map Prod.snd).getLastD 0 + w x * (intercept + slope * x)

/-!
## Continuous optimal-share selection (source lines 773-809)

For one end-of-period asset gridpoint, the row of end-of-period marginal
values of share `FOC_s` is scanned for the first grid segment on which
it crosses from nonnegative to nonpositive (`np.argmax` of the boolean
crossing mask returns the first `True`, or 0 when there is none); the
optimal share and consumption are linearly interpolated on that segment,
then the boundary constraints are applied: share 1 when the top-end
marginal value is positive, share 0 when the bottom-end marginal value
is negative (checked in that order). -/

def firstCross : List ℚ → Option ℕ
  | a :: b :: t =>
      if 0 ≤ a ∧ b ≤ 0 then some 0 else (firstCross (b :: t)).map (· + 1)
  | _ => none

/-- The segment index `share_idx` selected by `np.argmax(crossing)`:
the first crossing segment, or 0 when the mask is all false. -/
def shareIdx (foc : List ℚ) : ℕ := (firstCross foc).getD 0

/-- One row of the continuous share-selection step: given the share grid,
the row of `FOC_s` values and the row of `EndOfPrd_dvdaNvrs` values at
one asset gridpoint, return the optimal risky share and consumption. -/
def shareConsRow (ShareGrid foc dvdaNvrs : List ℚ) : ℚ × ℚ :=
  let j := shareIdx foc
  let bot_s := ShareGrid.getD j 0
  let top_s := ShareGrid.getD (j + 1) 0
  let bot_f := foc.getD j 0
  let top_f := foc.getD (j + 1) 0
  let bot_c := dvdaNvrs.getD j 0
  let top_c := dvdaNvrs.getD (j + 1) 0
  let alpha := 1 - top_f / (top_f - bot_f)
  let share0 := (1 - alpha) * bot_s + alpha * top_s
  let c0 := (1 - alpha) * bot_c + alpha * top_c
  let share1 := if 0 < foc.getLastD 0 then 1 else share0
  let c1 := if 0 < foc.getLastD 0 then dvdaNvrs.getLastD 0 else c0
  let share2 := if foc.headD 0 < 0 then 0 else share1
  let c2 := if foc.headD 0 < 0 then dvdaNvrs.headD 0 else c1
  (share2, c2)

theorem getLastD_mem_of_ne_nil (l : List ℚ) (h : l ≠ []) : l.getLastD 0 ∈ l := by
  induction l with
  | nil => exact absurd rfl h
  | cons a t ih =>
      cases t with
      | nil => simp
      | cons b s =>
          rw [List.getLastD_cons]
          exact List.mem_cons_of_mem a (ih (by simp))

theorem firstCross_isSome (a b : ℚ) (t : List ℚ) (ha : 0 ≤ a)
    (hb : (b :: t).getLastD 0 ≤ 0) : (firstCross (a :: b :: t)).isSome := by
  induction t generalizing a b with
  | nil =>
      have hb' : b ≤ 0 := by simpa using hb
      simp [firstCross, ha, hb']
  | cons c s ih =>
      by_cases hcross : 0 ≤ a ∧ b ≤ 0
      · simp [firstCross, hcross]
      · have hbpos : 0 ≤ b := by
          rcases lt_or_le 0 b with h | h
          · exact le_of_lt h
          · exact absurd ⟨ha, h⟩ hcross
        have h2 := ih b c hbpos (by simpa using hb)
        rcases Option.isSome_iff_exists.mp h2 with ⟨k, hk⟩
        rw [firstCross, if_neg hcross, hk]
        rfl

theorem firstCross_spec (foc : List ℚ) (j : ℕ) (h : firstCross foc = some j) :
    0 ≤ foc.getD j 0 ∧ foc.getD (j + 1) 0 ≤ 0 := by
  induction foc generalizing j with
  | nil => simp [firstCross] at h
  | cons a t ih =>
      cases t with
      | nil => simp [firstCross] at h
      | cons b s =>
          by_cases hcross : 0 ≤ a ∧ b ≤ 0
          · rw [firstCross, if_pos hcross] at h
            cases h
            simpa using hcross
          · rw [firstCross, if_neg hcross] at h
            rcases Option.map_eq_some'.mp h with ⟨k, hk, rfl⟩
            simpa using ih k hk

/-- The zero-crossing fraction `alpha = 1 - top_f / (top_f - bot_f)` on
the segment selected by `shareIdx`. -/
def crossAlpha (foc : List ℚ) : ℚ :=
  let j := shareIdx foc
  1 - foc.getD (j + 1) 0 / (foc.getD (j + 1) 0 - foc.getD j 0)

/-- C2 counterexample: the claim prescribes interpolation at the LAST
index where the marginal value of share is nonnegative followed by a
nonpositive value.  On the row FOC_s = [1, -1, 1, -1] over the share grid
[0, 1/3, 2/3, 1] that last crossing segment is index 2, giving share
(1/2)(2/3) + (1/2)(1) = 5/6; the code (np.argmax of the crossing mask)
takes the FIRST crossing segment, index 0, giving share 1/6. -/
theorem C2_counterexample :
    (shareConsRow [0, 1/3, 2/3, 1] [1, -1, 1, -1] [10, 20, 30, 40]).1 = 1/6 ∧
      ((1 : ℚ)/6) ≠ 5/6 := by
  constructor
  · norm_num [shareConsRow, shareIdx, firstCross]
  · norm_num

/-- C2 (amended): in continuous-share mode, for each asset gridpoint the
solver finds the FIRST share-grid segment where the end-of-period
marginal value of share is nonnegative followed by a nonpositive value,
computes the crossing fraction alpha = 1 - top_f/(top_f - bot_f) by
linear interpolation within that segment, and sets the optimal risky
share and consumption to the alpha-weighted interpolation between the
bracketing gridpoints; if all marginal-value-of-share values are
positive the share is 1, if all are negative it is 0, with consumption
taken from the corresponding end of the share grid. -/
theorem C2_share_selection (shareGrid foc nvrs : List ℚ) (hne : foc ≠ []) :
    ((∀ x ∈ foc, 0 < x) →
      shareConsRow shareGrid foc nvrs = (1, nvrs.getLastD 0)) ∧
    ((∀ x ∈ foc, x < 0) →
      shareConsRow shareGrid foc nvrs = (0, nvrs.headD 0)) ∧
    (0 ≤ foc.headD 0 → foc.getLastD 0 ≤ 0 →
      0 ≤ foc.getD (shareIdx foc) 0 ∧ foc.getD (shareIdx foc + 1) 0 ≤ 0 ∧
      shareConsRow shareGrid foc nvrs =
        ((1 - crossAlpha foc) * shareGrid.getD (shareIdx foc) 0 +
           crossAlpha foc * shareGrid.getD (shareIdx foc + 1) 0,
         (1 - crossAlpha foc) * nvrs.getD (shareIdx foc) 0 +
           crossAlpha foc * nvrs.getD (shareIdx foc + 1) 0)) := by
  refine ⟨?_, ?_, ?_⟩
  · intro hpos
    have hlast : 0 < foc.getLastD 0 := hpos _ (getLastD_mem_of_ne_nil foc hne)
    have hhead : ¬ foc.headD 0 < 0 := by
      cases foc with
      | nil => exact absurd rfl hne
      | cons x t => exact not_lt.mpr (le_of_lt (hpos x (List.mem_cons_self x t)))
    simp only [shareConsRow, Prod.mk.injEq]
    rw [if_neg hhead, if_neg hhead, if_pos hlast, if_pos hlast]
    exact ⟨rfl, rfl⟩
  · intro hneg
    have hhead : foc.headD 0 < 0 := by
      cases foc with
      | nil => exact absurd rfl hne
      | cons x t => exact hneg x (List.mem_cons_self x t)
    simp only [shareConsRow, Prod.mk.injEq]
    rw [if_pos hhead, if_pos hhead]
    exact ⟨rfl, rfl⟩
  · intro hh hl
    have hnotlast : ¬ 0 < foc.getLastD 0 := not_lt.mpr hl
    have hnothead : ¬ foc.headD 0 < 0 := not_lt.mpr hh
    have hcrossing : 0 ≤ foc.getD (shareIdx foc) 0 ∧
        foc.getD (shareIdx foc + 1) 0 ≤ 0 := by
      match foc, hne with
      | [f0], _ =>
          have h0 : f0 = 0 := le_antisymm (by simpa using hl) (by simpa using hh)
          subst h0
          simp [shareIdx, firstCross]
      | a :: b :: t, _ =>
          have hsome := firstCross_isSome a b t (by simpa using hh)
            (by simpa using hl)
          rcases Option.isSome_iff_exists.mp hsome with ⟨k, hk⟩
          have := firstCross_spec (a :: b :: t) k hk
          rwa [shareIdx, hk]
    refine ⟨hcrossing.1, hcrossing.2, ?_⟩
    simp only [shareConsRow, crossAlpha, Prod.mk.injEq]
    rw [if_neg hnothead, if_neg hnothead, if_neg hnotlast, if_neg hnotlast]
    exact ⟨rfl, rfl⟩

theorem C2_share_selection_witness :
    shareConsRow [0, 1] [1, -1] [2, 4] = (1/2, 3) := by
  have h := (C2_share_selection [0, 1] [1, -1] [2, 4]
    (List.cons_ne_nil _ _)).2.2 (by norm_num) (by norm_num)
  rw [h.2.2]
  norm_num [shareIdx, firstCross, crossAlpha]

/-!
## Bounds on piecewise-linear interpolation
-/

theorem mix_bounds (lo hi t a b : ℚ) (ht0 : 0 ≤ t) (ht1 : t ≤ 1)
    (ha0 : lo ≤ a) (ha1 : a ≤ hi) (hb0 : lo ≤ b) (hb1 : b ≤ hi) :
    lo ≤ (1 - t) * a + t * b ∧ (1 - t) * a + t * b ≤ hi := by
  constructor
  · nlinarith [mul_nonneg (by linarith : (0:ℚ) ≤ 1 - t) (by linarith : (0:ℚ) ≤ a - lo),
      mul_nonneg ht0 (by linarith : (0:ℚ) ≤ b - lo)]
  · nlinarith [mul_nonneg (by linarith : (0:ℚ) ≤ 1 - t) (by linarith : (0:ℚ) ≤ hi - a),
      mul_nonneg ht0 (by linarith : (0:ℚ) ≤ hi - b)]

theorem segment_bounds (lo hi x0 y0 x1 y1 x : ℚ) (hlt : x0 < x1) (h0 : x0 ≤ x)
    (h1 : x ≤ x1) (hy00 : lo ≤ y0) (hy01 : y0 ≤ hi) (hy10 : lo ≤ y1) (hy11 : y1 ≤ hi) :
    lo ≤ y0 + (x - x0) * (y1 - y0) / (x1 - x0) ∧
      y0 + (x - x0) * (y1 - y0) / (x1 - x0) ≤ hi := by
  have hd : 0 < x1 - x0 := by linarith
  have ht0 : 0 ≤ (x - x0) / (x1 - x0) := div_nonneg (by linarith) (le_of_lt hd)
  have ht1 : (x - x0) / (x1 - x0) ≤ 1 := (div_le_one hd).mpr (by linarith)
  have hrw : y0 + (x - x0) * (y1 - y0) / (x1 - x0)
      = (1 - (x - x0) / (x1 - x0)) * y0 + ((x - x0) / (x1 - x0)) * y1 := by
    field_simp
    ring
  rw [hrw]
  exact mix_bounds lo hi _ y0 y1 ht0 ht1 hy00 hy01 hy10 hy11

/-- Bounds for interpolation evaluated between the first and last node. -/
theorem interpPts_mem_within (lo hi : ℚ) (hlo : lo ≤ 0) (hhi : 0 ≤ hi)
    (pts : List (ℚ × ℚ)) (x : ℚ)
    (hchain : List.Chain' (fun p q : ℚ × ℚ => p.1 < q.1) pts)
    (hmem : ∀ p ∈ pts, lo ≤ p.2 ∧ p.2 ≤ hi)
    (hx1 : (pts.map Prod.fst).headD 0 ≤ x)
    (hx2 : x ≤ (pts.map Prod.fst).getLastD 0) :
    lo ≤ interpPts pts x ∧ interpPts pts x ≤ hi := by
  induction pts with
  | nil => exact ⟨hlo, hhi⟩
  | cons p t ih =>
      cases t with
      | nil =>
          obtain ⟨x0, y0⟩ := p
          rw [interpPts_single]
          exact hmem (x0, y0) (by simp)
      | cons q s =>
          cases s with
          | nil =>
              obtain ⟨x0, y0⟩ := p
              obtain ⟨x1, y1⟩ := q
              rw [interpPts_pair]
              have hlt : x0 < x1 := (List.chain'_cons.mp hchain).1
              have hb0 := hmem (x0, y0) (by simp)
              have hb1 := hmem (x1, y1) (by simp)
              exact segment_bounds lo hi x0 y0 x1 y1 x hlt (by simpa using hx1)
                (by simpa using hx2) hb0.1 hb0.2 hb1.1 hb1.2
          | cons r u =>
              obtain ⟨x0, y0⟩ := p
              obtain ⟨x1, y1⟩ := q
              rw [interpPts_cons]
              by_cases hxx : x ≤ x1
              · rw [if_pos hxx]
                have hlt : x0 < x1 := (List.chain'_cons.mp hchain).1
                have hb0 := hmem (x0, y0) (by simp)
                have hb1 := hmem (x1, y1) (by simp)
                exact segment_bounds lo hi x0 y0 x1 y1 x hlt (by simpa using hx1)
                  hxx hb0.1 hb0.2 hb1.1 hb1.2
              · rw [if_neg hxx]
                refine ih (List.chain'_cons.mp hchain).2
                  (fun p hp => hmem p (List.mem_cons_of_mem _ hp))
                  (by simpa using le_of_lt (not_le.mp hxx)) ?_
                simpa [List.getLastD_cons] using hx2

/-- The property that the last two node values of an interpolant are
equal (so that extending the last segment beyond the grid is constant,
as happens for the discrete-mode share function whose node values are
duplicated). -/
def lastTwoSndEq : List (ℚ × ℚ) → Prop
  | [p, q] => p.2 = q.2
  | _ :: p :: q :: t => lastTwoSndEq (p :: q :: t)
  | _ => True

/-- Bounds for interpolation evaluated anywhere above the first node,
when the last two node values coincide. -/
theorem interpPts_mem_aboveEq (lo hi : ℚ) (hlo : lo ≤ 0) (hhi : 0 ≤ hi)
    (pts : List (ℚ × ℚ)) (x : ℚ)
    (hchain : List.Chain' (fun p q : ℚ × ℚ => p.1 < q.1) pts)
    (hmem : ∀ p ∈ pts, lo ≤ p.2 ∧ p.2 ≤ hi)
    (hx1 : (pts.map Prod.fst).headD 0 ≤ x)
    (heq : lastTwoSndEq pts) :
    lo ≤ interpPts pts x ∧ interpPts pts x ≤ hi := by
  induction pts with
  | nil => exact ⟨hlo, hhi⟩
  | cons p t ih =>
      cases t with
      | nil =>
          obtain ⟨x0, y0⟩ := p
          rw [interpPts_single]
          exact hmem (x0, y0) (by simp)
      | cons q s =>
          cases s with
          | nil =>
              obtain ⟨x0, y0⟩ := p
              obtain ⟨x1, y1⟩ := q
              rw [interpPts_pair]
              have hlt : x0 < x1 := (List.chain'_cons.mp hchain).1
              have hb0 := hmem (x0, y0) (by simp)
              have hb1 := hmem (x1, y1) (by simp)
              by_cases hxx : x ≤ x1
              · exact segment_bounds lo hi x0 y0 x1 y1 x hlt (by simpa using hx1)
                  hxx hb0.1 hb0.2 hb1.1 hb1.2
              · have hyy : y1 = y0 := (heq : y0 = y1).symm
                subst hyy
                have : y1 + (x - x0) * (y1 - y1) / (x1 - x0) = y1 := by ring
                rw [this]
                exact hb0
          | cons r u =>
              obtain ⟨x0, y0⟩ := p
              obtain ⟨x1, y1⟩ := q
              rw [interpPts_cons]
              by_cases hxx : x ≤ x1
              · rw [if_pos hxx]
                have hlt : x0 < x1 := (List.chain'_cons.mp hchain).1
                have hb0 := hmem (x0, y0) (by simp)
                have hb1 := hmem (x1, y1) (by simp)
                exact segment_bounds lo hi x0 y0 x1 y1 x hlt (by simpa using hx1)
                  hxx hb0.1 hb0.2 hb1.1 hb1.2
              · rw [if_neg hxx]
                exact ih (List.chain'_cons.mp hchain).2
                  (fun p hp => hmem p (List.mem_cons_of_mem _ hp))
                  (by simpa using le_of_lt (not_le.mp hxx)) heq

/-!
## Boundedness of the continuous share selection
-/

theorem shareConsRow_fst (ShareGrid foc nvrs : List ℚ) :
    (shareConsRow ShareGrid foc nvrs).1 =
      if foc.headD 0 < 0 then 0
      else if 0 < foc.getLastD 0 then 1
      else (1 - crossAlpha foc) * ShareGrid.getD (shareIdx foc) 0 +
        crossAlpha foc * ShareGrid.getD (shareIdx foc + 1) 0 := rfl

theorem shareConsRow_snd (ShareGrid foc nvrs : List ℚ) :
    (shareConsRow ShareGrid foc nvrs).2 =
      if foc.headD 0 < 0 then nvrs.headD 0
      else if 0 < foc.getLastD 0 then nvrs.getLastD 0
      else (1 - crossAlpha foc) * nvrs.getD (shareIdx foc) 0 +
        crossAlpha foc * nvrs.getD (shareIdx foc + 1) 0 := rfl

theorem crossing_at_shareIdx (foc : List ℚ) (hh : 0 ≤ foc.headD 0)
    (hl : foc.getLastD 0 ≤ 0) :
    0 ≤ foc.getD (shareIdx foc) 0 ∧ foc.getD (shareIdx foc + 1) 0 ≤ 0 := by
  match foc with
  | [] => simp [shareIdx, firstCross]
  | [f0] =>
      have h0 : f0 = 0 := le_antisymm (by simpa using hl) (by simpa using hh)
      subst h0
      simp [shareIdx, firstCross]
  | a :: b :: t =>
      have hsome := firstCross_isSome a b t (by simpa using hh) (by simpa using hl)
      rcases Option.isSome_iff_exists.mp hsome with ⟨k, hk⟩
      have := firstCross_spec (a :: b :: t) k hk
      rwa [shareIdx, hk]

theorem getD_unit_bounds (l : List ℚ) (h : ∀ s ∈ l, 0 ≤ s ∧ s ≤ 1) (j : ℕ) :
    0 ≤ l.getD j 0 ∧ l.getD j 0 ≤ 1 := by
  induction l generalizing j with
  | nil => simp
  | cons a t ih =>
      cases j with
      | zero => simpa using h a (by simp)
      | succ k => simpa using ih (fun s hs => h s (by simp [hs])) k

theorem crossAlpha_unit (foc : List ℚ) (hh : 0 ≤ foc.headD 0)
    (hl : foc.getLastD 0 ≤ 0) :
    0 ≤ crossAlpha foc ∧ crossAlpha foc ≤ 1 := by
  obtain ⟨hbot, htop⟩ := crossing_at_shareIdx foc hh hl
  set bf := foc.getD (shareIdx foc) 0 with hbf
  set tf := foc.getD (shareIdx foc + 1) 0 with htf
  have halpha : crossAlpha foc = 1 - tf / (tf - bf) := rfl
  by_cases hd : tf - bf = 0
  · rw [halpha, hd, div_zero]
    norm_num
  · have hlt : tf - bf < 0 := lt_of_le_of_ne (by linarith) hd
    have hpos : 0 < bf - tf := by linarith
    have hrw : crossAlpha foc = bf / (bf - tf) := by
      rw [halpha]
      field_simp
      ring
    rw [hrw]
    exact ⟨div_nonneg hbot (le_of_lt hpos), (div_le_one hpos).mpr (by linarith)⟩

/-- The risky share selected by one row of the continuous share-selection
step lies in the unit interval whenever the share grid does. -/
theorem shareConsRow_fst_mem (ShareGrid foc nvrs : List ℚ)
    (hgrid : ∀ s ∈ ShareGrid, 0 ≤ s ∧ s ≤ 1) :
    0 ≤ (shareConsRow ShareGrid foc nvrs).1 ∧
      (shareConsRow ShareGrid foc nvrs).1 ≤ 1 := by
  rw [shareConsRow_fst]
  split_ifs with h1 h2
  · norm_num
  · norm_num
  · have hh : 0 ≤ foc.headD 0 := not_lt.mp h1
    have hl : foc.getLastD 0 ≤ 0 := not_lt.mp h2
    have halpha := crossAlpha_unit foc hh hl
    have hbs := getD_unit_bounds ShareGrid hgrid (shareIdx foc)
    have hts := getD_unit_bounds ShareGrid hgrid (shareIdx foc + 1)
    exact mix_bounds 0 1 (crossAlpha foc) _ _ halpha.1 halpha.2
      hbs.1 hbs.2 hts.1 hts.2

/-!
## Grid construction and optimal-policy arrays (source lines 415-468 and
762-870)
-/

/-- The minimum of a list (well defined for nonempty lists). -/
def listMin (l : List ℚ) : ℚ := l.foldr min (l.headD 0)

/-- `BoroCnstNat_iszero`: whether the smallest transitory income shock
atom is zero. -/
def boroCnstNatIsZero (incTranAtoms : List ℚ) : Bool :=
  decide (listMin incTranAtoms = 0)

/-- The end-of-period asset grid `aNrmGrid`: the externally supplied
`aXtraGrid`, with an exact zero prepended when the natural borrowing
constraint is not zero. -/
def aNrmGridDef (isZero : Bool) (aXtraGrid : List ℚ) : List ℚ :=
  if isZero then aXtraGrid else 0 :: aXtraGrid

/-- `np.argmax`: index of the first occurrence of the maximum value. -/
def argmaxIdx : List ℚ → ℕ
  | [] => 0
  | [_] => 0
  | a :: b :: t =>
      let j := argmaxIdx (b :: t)
      if a < (b :: t).getD j 0 then j + 1 else 0

/-- Continuous mode: the (share, consumption) rows over the asset grid,
one `shareConsRow` per row of `FOC_s` and `EndOfPrd_dvdaNvrs`. -/
def shareConsRows (ShareGrid : List ℚ) (FOC nvrsM : List (List ℚ)) :
    List (ℚ × ℚ) :=
  (FOC.zip nvrsM).map (fun r => shareConsRow ShareGrid r.1 r.2)

/-- Discrete mode: for each asset gridpoint, the share with the highest
end-of-period value and the consumption at that same index. -/
def shareConsRowsDisc (ShareGrid : List ℚ) (vM nvrsM : List (List ℚ)) :
    List (ℚ × ℚ) :=
  (vM.zip nvrsM).map (fun r =>
    (ShareGrid.getD (argmaxIdx r.1) 0, r.2.getD (argmaxIdx r.1) 0))

/-- The bottom-gridpoint fix of source lines 811-817: when the natural
borrowing constraint is not zero, force share 1 and consumption from the
top of the share grid at the zero-asset point. -/
def applyZeroAssetFix (isZero : Bool) (rows : List (ℚ × ℚ))
    (nvrsM : List (List ℚ)) : List (ℚ × ℚ) :=
  if isZero then rows
  else
    match rows, nvrsM with
    | _ :: rest, row0 :: _ => (1, row0.getLastD 0) :: rest
    | r, _ => r

/-- The endogenous market-resource grid `mNrmAdj_now`: asset grid plus
optimal consumption, with the exact origin prepended. -/
def mGridAdj (aGrid cVals : List ℚ) : List ℚ :=
  0 :: aGrid.zipWith (· + ·) cVals

/-- The consumption node values with the origin prepended
(`cNrmAdj_now` after the insert at source line 824). -/
def cVals0 (cVals : List ℚ) : List ℚ := 0 :: cVals

/-- The adjust-regime consumption function `cFuncAdj_now`: linear
interpolation over the endogenous gridpoints (no limiting slope or
intercept is supplied at source line 825). -/
def cFuncAdjEval (aGrid cVals : List ℚ) (m : ℚ) : ℚ :=
  interpPts ((mGridAdj aGrid cVals).zip (cVals0 cVals)) m

/-- Continuous-mode share nodes: the lower-bound share prepended to the
per-gridpoint optimal shares (source line 869). -/
def shareNodesCont (isZero : Bool) (ShareLimit : ℚ) (svals : List ℚ) :
    List ℚ :=
  (if isZero then ShareLimit else 1) :: svals

/-- Continuous-mode share function `ShareFuncAdj_now`: interpolation of
the share nodes over the endogenous grid, with limiting value
`ShareLimit` (slope 0) above the grid. -/
def ShareFuncAdjContEval (mGrid svals : List ℚ) (ShareLimit : ℚ)
    (w : ℚ → ℚ) (m : ℚ) : ℚ :=
  interpPtsLimit (mGrid.zip svals) ShareLimit 0 w m

/-- Pairwise interleaving of two lists (the transpose-flatten of
`np.vstack` at source line 858). -/
def interleave : List ℚ → List ℚ → List ℚ
  | a :: t, b :: u => a :: b :: interleave t u
  | _, _ => []

/-- Each element duplicated (`Share_comb` at source line 860). -/
def dupEach : List ℚ → List ℚ
  | [] => []
  | a :: t => a :: a :: dupEach t

/-- The discrete-mode x-grid `mNrmAdj_comb`: midpoints of consecutive
interior gridpoints, each followed by its (1+eps)-offset copy, with 0
prepended and the top gridpoint appended (source lines 856-859). -/
def combGrid (mGrid : List ℚ) (eps : ℚ) : List ℚ :=
  let mid := ((mGrid.drop 1).zip (mGrid.drop 2)).map (fun p => (p.1 + p.2) / 2)
  let midp := mid.map (fun x => x * (1 + eps))
  (0 :: interleave mid midp) ++ [mGrid.getLastD 0]

/-- Discrete-mode share function `ShareFuncAdj_now`: the near-step
interpolant over the comb grid with duplicated share values. -/
def ShareFuncAdjDiscEval (mGrid svals : List ℚ) (eps : ℚ) (m : ℚ) : ℚ :=
  interpPts ((combGrid mGrid eps).zip (dupEach svals)) m

theorem dupEach_length (l : List ℚ) : (dupEach l).length = 2 * l.length := by
  induction l with
  | nil => rfl
  | cons a t ih => simp [dupEach, ih]; ring

theorem dupEach_getD_even (l : List ℚ) (i : ℕ) :
    (dupEach l).getD (2 * i) 0 = l.getD i 0 := by
  induction l generalizing i with
  | nil => rfl
  | cons a t ih =>
      cases i with
      | zero => rfl
      | succ k =>
          have h2 : 2 * (k + 1) = (2 * k) + 1 + 1 := by ring
          rw [dupEach, h2, List.getD_cons_succ, List.getD_cons_succ,
            List.getD_cons_succ, ih]

theorem dupEach_getD_odd (l : List ℚ) (i : ℕ) :
    (dupEach l).getD (2 * i + 1) 0 = l.getD i 0 := by
  induction l generalizing i with
  | nil => rfl
  | cons a t ih =>
      cases i with
      | zero => rfl
      | succ k =>
          have h2 : 2 * (k + 1) + 1 = (2 * k + 1) + 1 + 1 := by ring
          rw [dupEach, h2, List.getD_cons_succ, List.getD_cons_succ,
            List.getD_cons_succ, ih]

theorem dupEach_mem (l : List ℚ) (x : ℚ) (h : x ∈ dupEach l) : x ∈ l := by
  induction l with
  | nil => simp [dupEach] at h
  | cons a t ih =>
      rw [dupEach] at h
      rcases List.mem_cons.mp h with h1 | h2
      · exact h1 ▸ List.mem_cons_self a t
      · rcases List.mem_cons.mp h2 with h3 | h4
        · exact h3 ▸ List.mem_cons_self a t
        · exact List.mem_cons_of_mem a (ih h4)

/-!
## Assembled policy construction
-/

/-- The inputs of the policy-construction stage of the period solver:
flags, grids, and the end-of-period arrays (`EndOfPrd_dvds` rows in
`FOC`, `EndOfPrd_v` rows in `vM`, `EndOfPrd_dvdaNvrs` rows in `nvrsM`),
one row per asset gridpoint. -/
structure PolicyInputs where
  isZero : Bool
  discrete : Bool
  ShareGrid : List ℚ
  ShareLimit : ℚ
  aXtraGrid : List ℚ
  FOC : List (List ℚ)
  vM : List (List ℚ)
  nvrsM : List (List ℚ)
  eps : ℚ

/-- The per-gridpoint (share, consumption) rows after optimal-share
selection (discrete or continuous) and the zero-asset fix. -/
def rowsAdj (I : PolicyInputs) : List (ℚ × ℚ) :=
  applyZeroAssetFix I.isZero
    (if I.discrete then shareConsRowsDisc I.ShareGrid I.vM I.nvrsM
     else shareConsRows I.ShareGrid I.FOC I.nvrsM) I.nvrsM

/-- `ShareAdj_now` before any prepending. -/
def svalsAdj (I : PolicyInputs) : List ℚ := (rowsAdj I).map Prod.fst

/-- `cNrmAdj_now` before the origin is prepended. -/
def cvalsAdj (I : PolicyInputs) : List ℚ := (rowsAdj I).map Prod.snd

/-- The asset grid used by the solver. -/
def aGridSol (I : PolicyInputs) : List ℚ := aNrmGridDef I.isZero I.aXtraGrid

/-- The endogenous market-resource grid of the solution. -/
def mGridSol (I : PolicyInputs) : List ℚ := mGridAdj (aGridSol I) (cvalsAdj I)

/-- The adjust-regime risky share function of the solution, in either
share-optimization mode. -/
def ShareFuncAdjSol (I : PolicyInputs) (w : ℚ → ℚ) (m : ℚ) : ℚ :=
  if I.discrete then ShareFuncAdjDiscEval (mGridSol I) (svalsAdj I) I.eps m
  else ShareFuncAdjContEval (mGridSol I)
    (shareNodesCont I.isZero I.ShareLimit (svalsAdj I)) I.ShareLimit w m

/-- The adjust-regime consumption function of the solution. -/
def cFuncAdjSol (I : PolicyInputs) (m : ℚ) : ℚ :=
  cFuncAdjEval (aGridSol I) (cvalsAdj I) m

theorem applyZeroAssetFix_mem (iz : Bool) (rows : List (ℚ × ℚ))
    (nv : List (List ℚ)) (p : ℚ × ℚ) (hp : p ∈ applyZeroAssetFix iz rows nv) :
    p ∈ rows ∨ p.1 = 1 := by
  unfold applyZeroAssetFix at hp
  split at hp
  · exact Or.inl hp
  · split at hp
    · rcases List.mem_cons.mp hp with h | h
      · right
        rw [h]
      · exact Or.inl (List.mem_cons_of_mem _ h)
    · exact Or.inl hp

theorem shareConsRows_fst_unit (ShareGrid : List ℚ) (FOC nvrsM : List (List ℚ))
    (hgrid : ∀ s ∈ ShareGrid, 0 ≤ s ∧ s ≤ 1) (q : ℚ × ℚ)
    (hq : q ∈ shareConsRows ShareGrid FOC nvrsM) : 0 ≤ q.1 ∧ q.1 ≤ 1 := by
  unfold shareConsRows at hq
  rcases List.mem_map.mp hq with ⟨r, _, rfl⟩
  exact shareConsRow_fst_mem ShareGrid r.1 r.2 hgrid

theorem shareConsRowsDisc_fst_unit (ShareGrid : List ℚ) (vM nvrsM : List (List ℚ))
    (hgrid : ∀ s ∈ ShareGrid, 0 ≤ s ∧ s ≤ 1) (q : ℚ × ℚ)
    (hq : q ∈ shareConsRowsDisc ShareGrid vM nvrsM) : 0 ≤ q.1 ∧ q.1 ≤ 1 := by
  unfold shareConsRowsDisc at hq
  rcases List.mem_map.mp hq with ⟨r, _, rfl⟩
  exact getD_unit_bounds ShareGrid hgrid (argmaxIdx r.1)

/-- Every per-gridpoint optimal share lies in the unit interval when the
share grid does. -/
theorem svalsAdj_unit (I : PolicyInputs)
    (hgrid : ∀ s ∈ I.ShareGrid, 0 ≤ s ∧ s ≤ 1) :
    ∀ v ∈ svalsAdj I, 0 ≤ v ∧ v ≤ 1 := by
  intro v hv
  unfold svalsAdj rowsAdj at hv
  rcases List.mem_map.mp hv with ⟨p, hp, rfl⟩
  rcases applyZeroAssetFix_mem _ _ _ p hp with hbase | hone
  · by_cases hd : I.discrete
    · rw [if_pos hd] at hbase
      exact shareConsRowsDisc_fst_unit I.ShareGrid I.vM I.nvrsM hgrid p hbase
    · rw [if_neg hd] at hbase
      exact shareConsRows_fst_unit I.ShareGrid I.FOC I.nvrsM hgrid p hbase
  · rw [hone]
    norm_num

theorem zip_getD (a b : List ℚ) (i : ℕ) (hia : i < a.length)
    (hib : i < b.length) :
    (a.zip b).getD i (0, 0) = (a.getD i 0, b.getD i 0) := by
  induction a generalizing b i with
  | nil => simp at hia
  | cons x t ih =>
      cases b with
      | nil => simp at hib
      | cons y u =>
          cases i with
          | zero => rfl
          | succ k =>
              simp only [List.zip_cons_cons, List.getD_cons_succ]
              exact ih u k (by simpa using hia) (by simpa using hib)

theorem lastTwoSndEq_of_getD (pts : List (ℚ × ℚ)) (hlen : 2 ≤ pts.length)
    (heq : (pts.getD (pts.length - 1) (0, 0)).2 =
      (pts.getD (pts.length - 2) (0, 0)).2) : lastTwoSndEq pts := by
  induction pts with
  | nil => simp at hlen
  | cons p t ih =>
      match t with
      | [] => simp at hlen
      | [q] =>
          show p.2 = q.2
          simpa using heq.symm
      | q :: r :: t2 =>
          show lastTwoSndEq (q :: r :: t2)
          apply ih (by simp)
          have h1 : (p :: q :: r :: t2).length - 1 = ((q :: r :: t2).length - 1) + 1 := by
            simp
          have h2 : (p :: q :: r :: t2).length - 2 = ((q :: r :: t2).length - 2) + 1 := by
            simp
          rw [h1, h2, List.getD_cons_succ, List.getD_cons_succ] at heq
          exact heq

/-- The discrete-mode node list (comb grid zipped with duplicated share
values) has equal last two values. -/
theorem zipDup_lastTwoSndEq (comb svals : List ℚ) (hne : svals ≠ [])
    (hlen : comb.length = 2 * svals.length) :
    lastTwoSndEq (comb.zip (dupEach svals)) := by
  have hn : 1 ≤ svals.length := List.length_pos.mpr hne
  have hzlen : (comb.zip (dupEach svals)).length = 2 * svals.length := by
    rw [List.length_zip, dupEach_length, hlen, min_self]
  apply lastTwoSndEq_of_getD _ (by omega)
  rw [hzlen]
  have h1 : 2 * svals.length - 1 = 2 * (svals.length - 1) + 1 := by omega
  have h2 : 2 * svals.length - 2 = 2 * (svals.length - 1) := by omega
  rw [h1, h2, zip_getD comb (dupEach svals) _ (by rw [hlen]; omega)
      (by rw [dupEach_length]; omega),
    zip_getD comb (dupEach svals) _ (by rw [hlen]; omega)
      (by rw [dupEach_length]; omega)]
  show (dupEach svals).getD (2 * (svals.length - 1) + 1) 0 =
    (dupEach svals).getD (2 * (svals.length - 1)) 0
  rw [dupEach_getD_odd, dupEach_getD_even]

theorem mapSnd_getLastD_unit (pts : List (ℚ × ℚ))
    (hmem : ∀ p ∈ pts, 0 ≤ p.2 ∧ p.2 ≤ 1) :
    0 ≤ (pts.map Prod.snd).getLastD 0 ∧ (pts.map Prod.snd).getLastD 0 ≤ 1 := by
  cases hpts : pts with
  | nil => simp
  | cons p t =>
      subst hpts
      have hne : ((p :: t).map Prod.snd) ≠ [] := by simp
      have hmm := getLastD_mem_of_ne_nil ((p :: t).map Prod.snd) hne
      rcases List.mem_map.mp hmm with ⟨q, hq, hqq⟩
      rw [← hqq]
      exact hmem q hq

theorem combGrid_eq_cons (mGrid : List ℚ) (eps : ℚ) :
    ∃ rest, combGrid mGrid eps = 0 :: rest := by
  unfold combGrid
  exact ⟨_, List.cons_append _ _ _⟩

/-- C3: for every period solution produced by the solver with a share
grid contained in [0,1] and a share limit in [0,1], the adjust-regime
share function stays in [0,1] at every market-resource level m ≥ 0, in
both the discrete and the continuous share-optimization modes, including
evaluation beyond the top of the endogenous grid.  The sanity hypotheses
are that the endogenous grids are strictly increasing (and, in discrete
mode, have the lengths the construction produces) and that the decay
weight of the limit extrapolation stays in [0,1]. -/
theorem C3_ShareFuncAdj_unit_range (I : PolicyInputs) (w : ℚ → ℚ) (m : ℚ)
    (hgrid : ∀ s ∈ I.ShareGrid, 0 ≤ s ∧ s ≤ 1)
    (hlim0 : 0 ≤ I.ShareLimit) (hlim1 : I.ShareLimit ≤ 1)
    (hm : 0 ≤ m) (hw : ∀ x, 0 ≤ w x ∧ w x ≤ 1)
    (hchainC : List.Chain' (fun p q : ℚ × ℚ => p.1 < q.1)
      ((mGridSol I).zip (shareNodesCont I.isZero I.ShareLimit (svalsAdj I))))
    (hchainD : List.Chain' (fun p q : ℚ × ℚ => p.1 < q.1)
      ((combGrid (mGridSol I) I.eps).zip (dupEach (svalsAdj I))))
    (hsne : svalsAdj I ≠ [])
    (hlenD : (combGrid (mGridSol I) I.eps).length = 2 * (svalsAdj I).length) :
    0 ≤ ShareFuncAdjSol I w m ∧ ShareFuncAdjSol I w m ≤ 1 := by
  have hsv := svalsAdj_unit I hgrid
  unfold ShareFuncAdjSol
  by_cases hd : I.discrete
  · rw [if_pos hd]
    unfold ShareFuncAdjDiscEval
    apply interpPts_mem_aboveEq 0 1 le_rfl (by norm_num) _ m hchainD
    · intro p hp
      exact hsv p.2 (dupEach_mem _ _ (List.of_mem_zip hp).2)
    · rcases combGrid_eq_cons (mGridSol I) I.eps with ⟨rest, hcomb⟩
      cases hsv2 : svalsAdj I with
      | nil => exact absurd hsv2 hsne
      | cons s t =>
          rw [hcomb]
          simpa [dupEach] using hm
    · exact zipDup_lastTwoSndEq _ _ hsne hlenD
  · rw [if_neg hd]
    simp only [ShareFuncAdjContEval, interpPtsLimit]
    have hmem : ∀ p ∈ (mGridSol I).zip
        (shareNodesCont I.isZero I.ShareLimit (svalsAdj I)),
        0 ≤ p.2 ∧ p.2 ≤ 1 := by
      intro p hp
      have h2 := (List.of_mem_zip hp).2
      unfold shareNodesCont at h2
      rcases List.mem_cons.mp h2 with h | h
      · rw [h]
        split_ifs
        · exact ⟨hlim0, hlim1⟩
        · norm_num
      · exact hsv _ h
    split_ifs with hcase
    · refine interpPts_mem_within 0 1 le_rfl (by norm_num) _ m hchainC hmem ?_ hcase
      show ((((mGridSol I).zip (shareNodesCont I.isZero I.ShareLimit
        (svalsAdj I))).map Prod.fst).headD 0) ≤ m
      simpa [mGridSol, mGridAdj, shareNodesCont] using hm
    · have hylast := mapSnd_getLastD_unit _ hmem
      have hwm := hw m
      have hb : I.ShareLimit + 0 * m = I.ShareLimit := by ring
      rw [hb]
      exact mix_bounds 0 1 (w m) _ _ hwm.1 hwm.2 hylast.1 hylast.2 hlim0 hlim1

/-- Concrete policy inputs for exercising the share-range theorem. -/
def c3I : PolicyInputs :=
  ⟨true, false, [0, 1], 1/2, [1, 2], [[1, -1], [1, -1]], [[0, 0], [0, 0]],
   [[1, 3], [3, 5]], 1/10⟩

/-- A concrete decay-weight profile. -/
def c3w : ℚ → ℚ := fun _ => 1/2

theorem C3_ShareFuncAdj_unit_range_witness :
    0 ≤ ShareFuncAdjSol c3I c3w 7 ∧ ShareFuncAdjSol c3I c3w 7 ≤ 1 := by
  have hs : svalsAdj c3I = [1/2, 1/2] := by
    norm_num [svalsAdj, rowsAdj, applyZeroAssetFix, shareConsRows, shareConsRow,
      shareIdx, firstCross, c3I]
  have hmg : mGridSol c3I = [0, 3, 6] := by
    norm_num [mGridSol, mGridAdj, aGridSol, aNrmGridDef, cvalsAdj, rowsAdj,
      applyZeroAssetFix, shareConsRows, shareConsRow, shareIdx, firstCross, c3I,
      List.zipWith]
  have hcomb : combGrid (mGridSol c3I) c3I.eps = [0, 9/2, 99/20, 6] := by
    rw [hmg]
    norm_num [combGrid, interleave, c3I]
  refine C3_ShareFuncAdj_unit_range c3I c3w 7 ?_ (by norm_num [c3I])
    (by norm_num [c3I]) (by norm_num) (fun x => by norm_num [c3w]) ?_ ?_ ?_ ?_
  · intro s hs2
    fin_cases hs2 <;> norm_num
  · rw [hmg, hs]
    norm_num [shareNodesCont, c3I, List.chain'_cons]
  · rw [hcomb, hs]
    norm_num [dupEach, List.chain'_cons]
  · rw [hs]
    simp
  · rw [hcomb, hs]
    rfl

/-!
## Exact behaviour of the endogenous-grid consumption interpolant (C4)
-/

theorem chain_fst_lt_of_mem (g : ℚ × ℚ) (l : List (ℚ × ℚ))
    (hchain : List.Chain' (fun p q : ℚ × ℚ => p.1 < q.1) (g :: l))
    (q : ℚ × ℚ) (hq : q ∈ l) : g.1 < q.1 := by
  induction l generalizing g with
  | nil => simp at hq
  | cons a t ih =>
      have h1 : g.1 < a.1 := (List.chain'_cons.mp hchain).1
      rcases List.mem_cons.mp hq with rfl | hq2
      · exact h1
      · exact lt_trans h1 (ih a (List.chain'_cons.mp hchain).2 hq2)

theorem interpPts_cons_of_ne (x0 y0 x1 y1 : ℚ) (t : List (ℚ × ℚ))
    (ht : t ≠ []) (x : ℚ) :
    interpPts ((x0, y0) :: (x1, y1) :: t) x =
      if x ≤ x1 then y0 + (x - x0) * (y1 - y0) / (x1 - x0)
      else interpPts ((x1, y1) :: t) x := by
  cases t with
  | nil => exact absurd rfl ht
  | cons a u => rw [interpPts_cons]

/-- An interpolant with strictly increasing nodes passes through every
one of its nodes. -/
theorem interpPts_at_node (pts : List (ℚ × ℚ))
    (hchain : List.Chain' (fun p q : ℚ × ℚ => p.1 < q.1) pts) :
    ∀ p ∈ pts, interpPts pts p.1 = p.2 := by
  induction pts with
  | nil => intro p hp; simp at hp
  | cons p0 t ih =>
      intro p hp
      cases t with
      | nil =>
          have hpp : p = p0 := by simpa using hp
          subst hpp
          obtain ⟨x0, y0⟩ := p
          rfl
      | cons q s =>
          obtain ⟨x0, y0⟩ := p0
          obtain ⟨x1, y1⟩ := q
          have hlt : x0 < x1 := (List.chain'_cons.mp hchain).1
          have htail := (List.chain'_cons.mp hchain).2
          have hne : x1 - x0 ≠ 0 := by intro h; apply absurd hlt; rw [show x1 = x0 by linarith]; exact lt_irrefl x0
          have hseg0 : y0 + (x0 - x0) * (y1 - y0) / (x1 - x0) = y0 := by
            rw [sub_self, zero_mul, zero_div, add_zero]
          have hseg1 : y0 + (x1 - x0) * (y1 - y0) / (x1 - x0) = y1 := by
            rw [mul_div_cancel_left₀ _ hne]
            ring
          cases s with
          | nil =>
              rcases List.mem_cons.mp hp with rfl | hp2
              · rw [interpPts_pair]
                exact hseg0
              · have hpp : p = (x1, y1) := by simpa using hp2
                subst hpp
                rw [interpPts_pair]
                exact hseg1
          | cons r u =>
              rcases List.mem_cons.mp hp with rfl | hp2
              · rw [interpPts_cons, if_pos (le_of_lt hlt)]
                exact hseg0
              · rw [interpPts_cons]
                rcases List.mem_cons.mp hp2 with rfl | hp3
                · rw [if_pos le_rfl]
                  exact hseg1
                · have hgt : x1 < p.1 :=
                    chain_fst_lt_of_mem (x1, y1) (r :: u) htail p hp3
                  rw [if_neg (not_le.mpr hgt)]
                  exact ih htail p hp2

/-- Above the top node, the interpolant extends the last grid segment
linearly. -/
theorem interpPts_above (front : List (ℚ × ℚ)) (p q : ℚ × ℚ) (x : ℚ)
    (hchain : List.Chain' (fun p q : ℚ × ℚ => p.1 < q.1) (front ++ [p, q]))
    (hx : q.1 ≤ x) :
    interpPts (front ++ [p, q]) x =
      p.2 + (x - p.1) * (q.2 - p.2) / (q.1 - p.1) := by
  induction front with
  | nil =>
      obtain ⟨xp, yp⟩ := p
      obtain ⟨xq, yq⟩ := q
      rfl
  | cons f front2 ih =>
      obtain ⟨xf, yf⟩ := f
      cases front2 with
      | nil =>
          obtain ⟨xp, yp⟩ := p
          obtain ⟨xq, yq⟩ := q
          simp only [List.cons_append, List.nil_append] at hchain ⊢
          have hpq : xp < xq :=
            (List.chain'_cons.mp (List.chain'_cons.mp hchain).2).1
          show interpPts [(xf, yf), (xp, yp), (xq, yq)] x = _
          rw [interpPts_cons, if_neg (not_le.mpr (lt_of_lt_of_le hpq hx)),
            interpPts_pair]
      | cons g front3 =>
          obtain ⟨xg, yg⟩ := g
          simp only [List.cons_append] at hchain ⊢
          have htail := (List.chain'_cons.mp hchain).2
          have hgq : xg < q.1 :=
            chain_fst_lt_of_mem (xg, yg) (front3 ++ [p, q]) htail q (by simp)
          rw [interpPts_cons_of_ne _ _ _ _ _ (by simp) x,
            if_neg (not_le.mpr (lt_of_lt_of_le hgq hx))]
          exact ih htail

/-!
## Asymptotic characterization (source lines 429-458)
-/

/-- `calc_Radj`: the Merton-Samuelson limiting portfolio return raised to
1-CRRA (the power is the abstract `pow1m`). -/
def calc_Radj (pow1m : ℚ → ℚ) (ShareLimit Rfree R : ℚ) : ℚ :=
  pow1m (ShareLimit * R + (1 - ShareLimit) * Rfree)

/-- `R_adj`: expectation of `calc_Radj` over the risky return
distribution. -/
def R_adj (pow1m : ℚ → ℚ) (ShareLimit Rfree : ℚ)
    (risky : List (ℚ × ℚ)) : ℚ :=
  expectedL risky (calc_Radj pow1m ShareLimit Rfree)

/-- `PatFac`: the absolute patience factor (the 1/CRRA power is the
abstract `powInv`). -/
def PatFac (powInv : ℚ → ℚ) (DiscFacEff Radj : ℚ) : ℚ :=
  powInv (DiscFacEff * Radj)

/-- `MPCminNow`: the minimal marginal propensity to consume, propagated
from next period. -/
def MPCminNow (powInv : ℚ → ℚ) (DiscFacEff Radj MPCminNext : ℚ) : ℚ :=
  1 / (1 + PatFac powInv DiscFacEff Radj / MPCminNext)

/-- `calc_hNrm`: realized human wealth (the CRRA power of the portfolio
return is the abstract `powC`). -/
def calc_hNrm (powC : ℚ → ℚ) (PermGroFac ShareLimit Rfree hNrmNext : ℚ)
    (S : JointShk) : ℚ :=
  let G := PermGroFac * S.perm
  let Rport := ShareLimit * S.risky + (1 - ShareLimit) * Rfree
  G / powC Rport * (S.tran + hNrmNext)

/-- `hNrmNow`: human wealth under risky returns. -/
def hNrmNow (powC : ℚ → ℚ) (PermGroFac ShareLimit Rfree hNrmNext Radj : ℚ)
    (shock : List (ℚ × JointShk)) : ℚ :=
  expectedL shock (calc_hNrm powC PermGroFac ShareLimit Rfree hNrmNext) / Radj

/-- C4 counterexample: the constructed `cFuncAdj` does not extrapolate
with the asymptotic slope/intercept — source line 825 builds
`LinearInterp(mNrmAdj_now, cNrmAdj_now)` without passing
`cFuncLimitIntercept`/`cFuncLimitSlope`.  With CRRA = 1 (so the abstract
powers are x^0 = 1, x^1 = x), DiscFacEff = 1, Rfree = 1, ShareLimit = 0,
a one-atom return distribution, MPCmin_next = 1 and hNrm_next = 0, the
asymptotic step gives MPCminNow = 1/2 and hNrmNow = 1, so the claimed
extrapolation at m = 4 is 1/2*1 + 1/2*4 = 5/2; the constructed function
with aNrmGrid = [1], cNrmAdj = [1] evaluates to 2 there (last-segment
slope 1/2 through the origin). -/
theorem C4_counterexample :
    MPCminNow id 1 (R_adj (fun _ => 1) 0 1 [(1, 2)]) 1 = 1/2 ∧
    hNrmNow id 1 0 1 0 (R_adj (fun _ => 1) 0 1 [(1, 2)]) [(1, ⟨1, 1, 2⟩)] = 1 ∧
    cFuncAdjEval [1] [1] 4 = 2 ∧
    ¬ cFuncAdjEval [1] [1] 4 =
      MPCminNow id 1 (R_adj (fun _ => 1) 0 1 [(1, 2)]) 1 *
          hNrmNow id 1 0 1 0 (R_adj (fun _ => 1) 0 1 [(1, 2)]) [(1, ⟨1, 1, 2⟩)] +
        MPCminNow id 1 (R_adj (fun _ => 1) 0 1 [(1, 2)]) 1 * 4 := by
  refine ⟨?_, ?_, ?_, ?_⟩ <;>
    norm_num [MPCminNow, PatFac, R_adj, calc_Radj, expectedL, hNrmNow,
      calc_hNrm, cFuncAdjEval, mGridAdj, cVals0, interpPts]

/-- C4 (amended): the adjust-regime consumption function is built by the
endogenous grid method — market-resource gridpoints are
aNrmGrid[i] + cNrmAdj[i] with the exact origin prepended, and the
function is the piecewise-linear interpolant passing through these
endogenous points — but beyond the finite grid it is extrapolated by
extending the last grid segment linearly; the asymptotic slope MPCminNow
and intercept MPCminNow*hNrmNow are computed by the
asymptotic-characterization step yet not applied to the interpolant. -/
theorem C4_cFuncAdj_egm (aGrid cVals : List ℚ)
    (hchain : List.Chain' (fun p q : ℚ × ℚ => p.1 < q.1)
      ((mGridAdj aGrid cVals).zip (cVals0 cVals))) :
    (∀ p ∈ (mGridAdj aGrid cVals).zip (cVals0 cVals),
      cFuncAdjEval aGrid cVals p.1 = p.2) ∧
    (∀ front pl ql, (mGridAdj aGrid cVals).zip (cVals0 cVals) =
        front ++ [pl, ql] → ∀ m, ql.1 ≤ m →
      cFuncAdjEval aGrid cVals m =
        pl.2 + (m - pl.1) * (ql.2 - pl.2) / (ql.1 - pl.1)) := by
  constructor
  · intro p hp
    exact interpPts_at_node _ hchain p hp
  · intro front pl ql hdec m hm
    unfold cFuncAdjEval
    rw [hdec] at hchain ⊢
    exact interpPts_above front pl ql m hchain hm

theorem C4_cFuncAdj_egm_witness :
    cFuncAdjEval [1, 2] [1, 2] 0 = 0 ∧ cFuncAdjEval [1, 2] [1, 2] 2 = 1 ∧
      cFuncAdjEval [1, 2] [1, 2] 10 = 5 := by
  have h := C4_cFuncAdj_egm [1, 2] [1, 2] (by
    norm_num [mGridAdj, cVals0, List.zipWith, List.chain'_cons])
  refine ⟨?_, ?_, ?_⟩
  · have := h.1 (0, 0) (by norm_num [mGridAdj, cVals0, List.zipWith])
    simpa using this
  · have := h.1 (2, 1) (by norm_num [mGridAdj, cVals0, List.zipWith])
    simpa using this
  · have := h.2 [(0, 0)] (2, 1) (4, 2)
      (by norm_num [mGridAdj, cVals0, List.zipWith]) 10 (by norm_num)
    rw [this]
    norm_num

/-!
## Monotonicity of the consumption interpolant (C7)
-/

theorem seg_mono (x0 y0 x1 y1 x y : ℚ) (hlt : x0 < x1) (hle : y0 ≤ y1)
    (hxy : x ≤ y) :
    y0 + (x - x0) * (y1 - y0) / (x1 - x0) ≤
      y0 + (y - x0) * (y1 - y0) / (x1 - x0) := by
  have hs : 0 ≤ (y1 - y0) / (x1 - x0) := div_nonneg (by linarith) (by linarith)
  rw [mul_div_assoc, mul_div_assoc]
  have := mul_le_mul_of_nonneg_right (sub_le_sub_right hxy x0) hs
  linarith

/-- A piecewise-linear interpolant with nondecreasing node values is
nondecreasing everywhere. -/
theorem interpPts_mono (pts : List (ℚ × ℚ))
    (hchain : List.Chain' (fun p q : ℚ × ℚ => p.1 < q.1) pts)
    (hmono : List.Chain' (fun p q : ℚ × ℚ => p.2 ≤ q.2) pts) :
    ∀ x y : ℚ, x ≤ y → interpPts pts x ≤ interpPts pts y := by
  induction pts with
  | nil => intro x y _; exact le_rfl
  | cons p t ih =>
      intro x y hxy
      cases t with
      | nil =>
          obtain ⟨x0, y0⟩ := p
          rw [interpPts_single, interpPts_single]
      | cons q s =>
          obtain ⟨x0, y0⟩ := p
          obtain ⟨x1, y1⟩ := q
          have hlt : x0 < x1 := (List.chain'_cons.mp hchain).1
          have hle : y0 ≤ y1 := (List.chain'_cons.mp hmono).1
          have htailc := (List.chain'_cons.mp hchain).2
          have htailm := (List.chain'_cons.mp hmono).2
          cases s with
          | nil =>
              rw [interpPts_pair, interpPts_pair]
              exact seg_mono x0 y0 x1 y1 x y hlt hle hxy
          | cons r u =>
              rw [interpPts_cons, interpPts_cons]
              by_cases hx1 : x ≤ x1
              · by_cases hy1 : y ≤ x1
                · rw [if_pos hx1, if_pos hy1]
                  exact seg_mono x0 y0 x1 y1 x y hlt hle hxy
                · rw [if_pos hx1, if_neg hy1]
                  have hnode : y0 + (x1 - x0) * (y1 - y0) / (x1 - x0) = y1 := by
                    rw [mul_div_cancel_left₀ _
                      (by intro h
                          exact absurd (by linarith : x1 ≤ x0) (not_le.mpr hlt))]
                    ring
                  have h1 : y0 + (x - x0) * (y1 - y0) / (x1 - x0) ≤ y1 := by
                    have := seg_mono x0 y0 x1 y1 x x1 hlt hle hx1
                    linarith
                  have h2 : interpPts ((x1, y1) :: r :: u) x1 = y1 :=
                    interpPts_at_node _ htailc (x1, y1) (by simp)
                  have h3 := ih htailc htailm x1 y (le_of_lt (not_le.mp hy1))
                  linarith
              · have hy1 : ¬ y ≤ x1 := fun h => hx1 (le_trans hxy h)
                rw [if_neg hx1, if_neg hy1]
                exact ih htailc htailm x y hxy

theorem segment_le_id (x0 y0 x1 y1 x : ℚ) (hlt : x0 < x1) (hx : x0 ≤ x)
    (hy0 : y0 ≤ x0) (hslope : y1 - y0 ≤ x1 - x0) :
    y0 + (x - x0) * (y1 - y0) / (x1 - x0) ≤ x := by
  have hd : 0 < x1 - x0 := by linarith
  have ht0 : 0 ≤ (x - x0) / (x1 - x0) := div_nonneg (by linarith) hd.le
  have key : y0 + (x - x0) * (y1 - y0) / (x1 - x0) - x
      = (y0 - x0) + ((x - x0) / (x1 - x0)) * ((y1 - y0) - (x1 - x0)) := by
    field_simp
    ring
  have h2 : 0 ≤ ((x - x0) / (x1 - x0)) * ((x1 - x0) - (y1 - y0)) :=
    mul_nonneg ht0 (by linarith)
  nlinarith [key, h2]

/-- A piecewise-linear interpolant whose node values are dominated by the
node positions, with segment slopes at most one, stays below the
identity from the first node on. -/
theorem interpPts_le_id (pts : List (ℚ × ℚ))
    (hchain : List.Chain' (fun p q : ℚ × ℚ => p.1 < q.1) pts)
    (hdom : ∀ p ∈ pts, p.2 ≤ p.1)
    (hslopes : List.Chain' (fun p q : ℚ × ℚ => q.2 - p.2 ≤ q.1 - p.1) pts) :
    ∀ x : ℚ, (pts.map Prod.fst).headD 0 ≤ x → interpPts pts x ≤ x := by
  induction pts with
  | nil => intro x hx; simpa [interpPts_nil] using hx
  | cons p t ih =>
      intro x hx
      cases t with
      | nil =>
          obtain ⟨x0, y0⟩ := p
          rw [interpPts_single]
          have := hdom (x0, y0) (by simp)
          simp only [List.map_cons, List.headD_cons] at hx
          linarith
      | cons q s =>
          obtain ⟨x0, y0⟩ := p
          obtain ⟨x1, y1⟩ := q
          have hlt : x0 < x1 := (List.chain'_cons.mp hchain).1
          have hslope1 := (List.chain'_cons.mp hslopes).1
          have hy0 := hdom (x0, y0) (by simp)
          simp only [List.map_cons, List.headD_cons] at hx
          cases s with
          | nil =>
              rw [interpPts_pair]
              exact segment_le_id x0 y0 x1 y1 x hlt hx hy0 hslope1
          | cons r u =>
              rw [interpPts_cons]
              by_cases hx1 : x ≤ x1
              · rw [if_pos hx1]
                exact segment_le_id x0 y0 x1 y1 x hlt hx hy0 hslope1
              · rw [if_neg hx1]
                refine ih (List.chain'_cons.mp hchain).2
                  (fun p hp => hdom p (List.mem_cons_of_mem _ hp))
                  (List.chain'_cons.mp hslopes).2 x ?_
                simpa using le_of_lt (not_le.mp hx1)

/-- C7: the adjust-regime consumption function built by the solver is
non-decreasing in market resources, and consumption never exceeds market
resources at any m ≥ 0, under the sanity hypotheses that the endogenous
nodes are strictly increasing with nondecreasing consumption values,
consumption at each node not exceeding resources there, and per-segment
consumption increments not exceeding the resource increments (which hold
when the computed consumption array is nonnegative and nondecreasing
over an increasing asset grid). -/
theorem C7_cFuncAdj_monotone_bounded (aGrid cVals : List ℚ)
    (hchain : List.Chain' (fun p q : ℚ × ℚ => p.1 < q.1)
      ((mGridAdj aGrid cVals).zip (cVals0 cVals)))
    (hmono : List.Chain' (fun p q : ℚ × ℚ => p.2 ≤ q.2)
      ((mGridAdj aGrid cVals).zip (cVals0 cVals)))
    (hdom : ∀ p ∈ (mGridAdj aGrid cVals).zip (cVals0 cVals), p.2 ≤ p.1)
    (hslopes : List.Chain' (fun p q : ℚ × ℚ => q.2 - p.2 ≤ q.1 - p.1)
      ((mGridAdj aGrid cVals).zip (cVals0 cVals))) :
    (∀ m1 m2 : ℚ, m1 ≤ m2 →
      cFuncAdjEval aGrid cVals m1 ≤ cFuncAdjEval aGrid cVals m2) ∧
    (∀ m : ℚ, 0 ≤ m → cFuncAdjEval aGrid cVals m ≤ m) := by
  constructor
  · intro m1 m2 h12
    exact interpPts_mono _ hchain hmono m1 m2 h12
  · intro m hm
    refine interpPts_le_id _ hchain hdom hslopes m ?_
    simpa [mGridAdj, cVals0] using hm

theorem C7_cFuncAdj_monotone_bounded_witness :
    cFuncAdjEval [1, 2] [1, 2] 3 ≤ cFuncAdjEval [1, 2] [1, 2] 10 ∧
      cFuncAdjEval [1, 2] [1, 2] 3 ≤ 3 := by
  have h := C7_cFuncAdj_monotone_bounded [1, 2] [1, 2]
    (by norm_num [mGridAdj, cVals0, List.zipWith, List.chain'_cons])
    (by norm_num [mGridAdj, cVals0, List.zipWith, List.chain'_cons])
    (by intro p hp
        fin_cases hp <;> norm_num)
    (by norm_num [mGridAdj, cVals0, List.zipWith, List.chain'_cons])
  exact ⟨h.1 3 10 (by norm_num), h.2 3 (by norm_num)⟩

/-- C8: when the smallest transitory income shock is strictly positive
(natural borrowing constraint not zero), the asset grid is aXtraGrid with
an exact 0 prepended, and at the zero-asset gridpoint the optimal share
is forced to 1 with consumption read from the last share index of the
first row of the inverse-marginal-utility array; when the smallest
transitory shock is zero, the grid is aXtraGrid unchanged and the rows
are left untouched. -/
theorem C8_asset_grid_and_zero_fix (atoms aXtraGrid : List ℚ)
    (rows : List (ℚ × ℚ)) (r0 : ℚ × ℚ) (rest : List (ℚ × ℚ))
    (row0 : List ℚ) (restM : List (List ℚ)) :
    (0 < listMin atoms →
      boroCnstNatIsZero atoms = false ∧
      aNrmGridDef (boroCnstNatIsZero atoms) aXtraGrid = 0 :: aXtraGrid ∧
      applyZeroAssetFix (boroCnstNatIsZero atoms) (r0 :: rest) (row0 :: restM)
        = (1, row0.getLastD 0) :: rest) ∧
    (listMin atoms = 0 →
      boroCnstNatIsZero atoms = true ∧
      aNrmGridDef (boroCnstNatIsZero atoms) aXtraGrid = aXtraGrid ∧
      applyZeroAssetFix (boroCnstNatIsZero atoms) rows (row0 :: restM) = rows) := by
  constructor
  · intro hpos
    have hb : boroCnstNatIsZero atoms = false := by
      unfold boroCnstNatIsZero
      rw [decide_eq_false_iff_not]
      exact fun h => absurd (h ▸ hpos) (lt_irrefl 0)
    refine ⟨hb, ?_, ?_⟩
    · rw [hb]
      rfl
    · rw [hb]
      rfl
  · intro hzero
    have hb : boroCnstNatIsZero atoms = true := by
      unfold boroCnstNatIsZero
      rw [decide_eq_true_eq]
      exact hzero
    refine ⟨hb, ?_, ?_⟩
    · rw [hb]
      rfl
    · rw [hb]
      rfl

theorem C8_asset_grid_and_zero_fix_witness :
    (aNrmGridDef (boroCnstNatIsZero [1]) [2, 3] = [0, 2, 3] ∧
      applyZeroAssetFix (boroCnstNatIsZero [1]) [(5, 6), (7, 8)] [[9, 10]]
        = [(1, 10), (7, 8)]) ∧
    (aNrmGridDef (boroCnstNatIsZero [0, 1]) [2, 3] = [2, 3] ∧
      applyZeroAssetFix (boroCnstNatIsZero [0, 1]) [(5, 6)] [[9, 10]]
        = [(5, 6)]) := by
  have h1 := (C8_asset_grid_and_zero_fix [1] [2, 3] [] (5, 6) [(7, 8)]
    [9, 10] []).1 (by norm_num [listMin])
  have h2 := (C8_asset_grid_and_zero_fix [0, 1] [2, 3] [(5, 6)] (0, 0) []
    [9, 10] []).2 (by norm_num [listMin])
  exact ⟨⟨h1.2.1, by rw [h1.2.2]; rfl⟩, ⟨h2.2.1, h2.2.2⟩⟩

/-!
## The PortfolioSolution record (source lines 33-144) and the terminal
solution (source lines 180-226)

Python function-valued attributes may hold `None`; this is modelled by
`Option FnObj`, where `FnObj.nullFunc` is the explicit `NullFunc`
placeholder object and `fn1`/`fn2` are ordinary one- and two-argument
function objects.
-/

inductive FnObj where
  | nullFunc : FnObj
  | fn1 : (ℚ → ℚ) → FnObj
  | fn2 : (ℚ → ℚ → ℚ) → FnObj

def FnObj.app1 : FnObj → ℚ → ℚ
  | FnObj.fn1 f, x => f x
  | _, _ => 0

def FnObj.app2 : FnObj → ℚ → ℚ → ℚ
  | FnObj.fn2 f, x, y => f x y
  | _, _, _ => 0

/-- Evaluate an optionally-present one-argument function field. -/
def optApp1 (o : Option FnObj) (x : ℚ) : ℚ := (o.getD FnObj.nullFunc).app1 x

/-- Evaluate an optionally-present two-argument function field. -/
def optApp2 (o : Option FnObj) (x y : ℚ) : ℚ := (o.getD FnObj.nullFunc).app2 x y

structure PortfolioSolutionE where
  cFuncAdj : Option FnObj
  ShareFuncAdj : Option FnObj
  vFuncAdj : Option FnObj
  vPfuncAdj : Option FnObj
  cFuncFxd : Option FnObj
  ShareFuncFxd : Option FnObj
  vFuncFxd : Option FnObj
  dvdmFuncFxd : Option FnObj
  dvdsFuncFxd : Option FnObj
  aGrid : List ℚ
  Share_adj : List ℚ
  EndOfPrddvda_adj : List ℚ
  ShareGrid : List ℚ
  EndOfPrddvda_fxd : List (List ℚ)
  EndOfPrddvds_fxd : List (List ℚ)
  AdjPrb : Option ℚ
  hNrm : ℚ
  MPCmin : ℚ

/-- The None-to-NullFunc replacement performed on every function argument
by `PortfolioSolution.__init__`. -/
def fillNull (x : Option FnObj) : Option FnObj :=
  match x with
  | none => some FnObj.nullFunc
  | some f => some f

/-- `PortfolioSolution.__init__`: replaces missing function inputs by
`NullFunc` and stores all attributes (`hNrm`/`MPCmin` are attached after
construction and default to 0 here). -/
def mkPortfolioSolution (cFuncAdj ShareFuncAdj vFuncAdj vPfuncAdj cFuncFxd
    ShareFuncFxd vFuncFxd dvdmFuncFxd dvdsFuncFxd : Option FnObj)
    (aGrid Share_adj EndOfPrddvda_adj ShareGrid : List ℚ)
    (EndOfPrddvda_fxd EndOfPrddvds_fxd : List (List ℚ))
    (AdjPrb : Option ℚ) : PortfolioSolutionE :=
  ⟨fillNull cFuncAdj, fillNull ShareFuncAdj, fillNull vFuncAdj,
   fillNull vPfuncAdj, fillNull cFuncFxd, fillNull ShareFuncFxd,
   fillNull vFuncFxd, fillNull dvdmFuncFxd, fillNull dvdsFuncFxd,
   aGrid, Share_adj, EndOfPrddvda_adj, ShareGrid,
   EndOfPrddvda_fxd, EndOfPrddvds_fxd, AdjPrb, 0, 0⟩

/-- Attaching the asymptotic scalars after construction (as the Python
code does with attribute assignment). -/
def setAsymptotics (s : PortfolioSolutionE) (h mpc : ℚ) : PortfolioSolutionE :=
  ⟨s.cFuncAdj, s.ShareFuncAdj, s.vFuncAdj, s.vPfuncAdj, s.cFuncFxd,
   s.ShareFuncFxd, s.vFuncFxd, s.dvdmFuncFxd, s.dvdsFuncFxd, s.aGrid,
   s.Share_adj, s.EndOfPrddvda_adj, s.ShareGrid, s.EndOfPrddvda_fxd,
   s.EndOfPrddvds_fxd, s.AdjPrb, h, mpc⟩

/-- `update_solution_terminal`: consume everything (`IdentityFunction`),
invest nothing (`ConstantFunction(0.0)`), fixed-regime consumption is the
identity in the resources argument, value/marginal-value wrappers apply
the external CRRA transforms `u`/`uP` to the identity consumption
functions, and the asymptotic scalars are hNrm = 0, MPCmin = 1. -/
def updateSolutionTerminal (u uP : ℚ → ℚ) : PortfolioSolutionE :=
  let cFuncAdj_terminal := FnObj.fn1 (fun m => m)
  let cFuncFxd_terminal := FnObj.fn2 (fun m _ => m)
  let ShareFuncAdj_terminal := FnObj.fn1 (fun _ => 0)
  let ShareFuncFxd_terminal := FnObj.fn2 (fun _ z => z)
  let vFuncAdj_terminal := FnObj.fn1 (fun m => u m)
  let vFuncFxd_terminal := FnObj.fn2 (fun m _ => u m)
  let vPfuncAdj_terminal := FnObj.fn1 (fun m => uP m)
  let dvdmFuncFxd_terminal := FnObj.fn2 (fun m _ => uP m)
  let dvdsFuncFxd_terminal := FnObj.fn2 (fun _ _ => 0)
  setAsymptotics
    (mkPortfolioSolution (some cFuncAdj_terminal) (some ShareFuncAdj_terminal)
      (some vFuncAdj_terminal) (some vPfuncAdj_terminal)
      (some cFuncFxd_terminal) (some ShareFuncFxd_terminal)
      (some vFuncFxd_terminal) (some dvdmFuncFxd_terminal)
      (some dvdsFuncFxd_terminal) [] [] [] [] [] [] none)
    0 1

/-- C6: the terminal-period solution consumes everything and invests
nothing: cFuncAdj is the identity (so consumptionAdjust(m) = m for every
m ≥ 0), ShareFuncAdj is constantly zero, the fixed-regime consumption
function returns the resources argument unchanged, and hNrm = 0,
MPCmin = 1 seed the backward recursion. -/
theorem C6_terminal_solution (u uP : ℚ → ℚ) :
    (∀ m : ℚ, 0 ≤ m → optApp1 (updateSolutionTerminal u uP).cFuncAdj m = m) ∧
    (∀ m : ℚ, optApp1 (updateSolutionTerminal u uP).ShareFuncAdj m = 0) ∧
    (∀ m z : ℚ, optApp2 (updateSolutionTerminal u uP).cFuncFxd m z = m) ∧
    (updateSolutionTerminal u uP).hNrm = 0 ∧
    (updateSolutionTerminal u uP).MPCmin = 1 :=
  ⟨fun _ _ => rfl, fun _ => rfl, fun _ _ => rfl, rfl, rfl⟩

theorem C6_terminal_solution_witness :
    optApp1 (updateSolutionTerminal (fun x => x * x) (fun x => x + 1)).cFuncAdj 3 = 3 :=
  (C6_terminal_solution (fun x => x * x) (fun x => x + 1)).1 3 (by norm_num)

/-!
## The assembled period solver `solve_one_period_ConsPortfolio`

The numerical core (expectations, share selection, endogenous grid) is
the machinery defined above.  External numeric primitives
(`uFunc.derinv`, the 1/CRRA and CRRA powers, the decay profile of the
limit extrapolation) and the next-period scalars are abstract inputs; in
the independent fast path the intermediate interpolants
(`dvdbFunc_intermed` etc., built with the external BilinearInterp) are
modelled as the exact intermediate expectations they interpolate.  The
value-function construction of source lines 884-922 (built with the
external CubicInterp) is abstracted as the prebuilt objects
`vFuncAdjBuilt`/`vFuncFxdBuilt`.
-/

structure SolveArgs where
  BoroCnstArt : ℚ
  vFuncBool : Bool
  DiscreteShareBool : Bool
  IndepDstnBool : Bool
  AdjustPrb : ℚ
  ShareLimit : ℚ
  aXtraGrid : List ℚ
  ShareGrid : List ℚ
  IncShkDstn : List (ℚ × IncShk)
  RiskyDstn : List (ℚ × ℚ)
  ShockDstn : List (ℚ × JointShk)
  eps : ℚ

structure SolverExtras where
  uDerinv : ℚ → ℚ
  powInvCRRA : ℚ → ℚ
  powCRRA : ℚ → ℚ
  MPCminNext : ℚ
  hNrmNext : ℚ
  decayW : ℚ → ℚ
  vFuncAdjBuilt : FnObj
  vFuncFxdBuilt : FnObj

/-- Whether the natural borrowing constraint is zero: the smallest
transitory shock atom is zero. -/
def solIsZero (A : SolveArgs) : Bool :=
  boroCnstNatIsZero (A.IncShkDstn.map (fun p => p.2.tran))

/-- The end-of-period marginal value of assets over the asset and share
grids, by the path selected by `IndepDstnBool`. -/
def solDvdaM (A : SolveArgs) (P : SolverParams) : List (List ℚ) :=
  (aNrmGridDef (solIsZero A) A.aXtraGrid).map (fun a => A.ShareGrid.map (fun z =>
    if A.IndepDstnBool then
      EndOfPrd_dvda_indep P A.RiskyDstn (dvdb_exact P A.IncShkDstn) a z
    else EndOfPrd_dvda_joint P A.ShockDstn a z))

/-- The end-of-period marginal value of the risky share over the grids. -/
def solDvdsM (A : SolveArgs) (P : SolverParams) : List (List ℚ) :=
  (aNrmGridDef (solIsZero A) A.aXtraGrid).map (fun a => A.ShareGrid.map (fun z =>
    if A.IndepDstnBool then
      EndOfPrd_dvds_indep P A.RiskyDstn (dvdb_exact P A.IncShkDstn)
        (dvds_intermed_exact P A.IncShkDstn) a z
    else EndOfPrd_dvds_joint P A.ShockDstn a z))

/-- The end-of-period value over the grids (used by the discrete-share
selection; only constructed when the value function is requested). -/
def solVM (A : SolveArgs) (P : SolverParams) : List (List ℚ) :=
  (aNrmGridDef (solIsZero A) A.aXtraGrid).map (fun a => A.ShareGrid.map (fun z =>
    if A.IndepDstnBool then
      EndOfPrd_v_indep P A.RiskyDstn (v_intermed_exact P A.IncShkDstn) a z
    else EndOfPrd_v_joint P A.ShockDstn a z))

/-- `EndOfPrd_dvdaNvrs`: the inverse marginal utility of the marginal
value of assets. -/
def solNvrsM (A : SolveArgs) (P : SolverParams) (E : SolverExtras) :
    List (List ℚ) :=
  (solDvdaM A P).map (List.map E.uDerinv)

/-- The policy-construction inputs assembled by the solver. -/
def solPolicyInputs (A : SolveArgs) (P : SolverParams) (E : SolverExtras) :
    PolicyInputs :=
  ⟨solIsZero A, A.DiscreteShareBool, A.ShareGrid, A.ShareLimit, A.aXtraGrid,
   solDvdsM A P, solVM A P, solNvrsM A P E, A.eps⟩

/-- `Share_adj` as stored in `save_points`: taken after the continuous
branch has prepended the lower-bound share (no prepend in discrete
mode). -/
def solShareAdjSave (A : SolveArgs) (P : SolverParams) (E : SolverExtras) :
    List ℚ :=
  if A.DiscreteShareBool then svalsAdj (solPolicyInputs A P E)
  else shareNodesCont (solIsZero A) A.ShareLimit (svalsAdj (solPolicyInputs A P E))

/-- `EndOfPrddvda_adj` as stored: `uFunc.der` applied to the
origin-prepended consumption array. -/
def solEopDvdaAdjSave (A : SolveArgs) (P : SolverParams) (E : SolverExtras) :
    List ℚ :=
  (cVals0 (cvalsAdj (solPolicyInputs A P E))).map P.powNegCRRA

/-- `EndOfPrddvda_fxd` as stored: `uFunc.der` applied to the
`EndOfPrd_dvda` array itself (source line 879). -/
def solEopDvdaFxdSave (A : SolveArgs) (P : SolverParams) : List (List ℚ) :=
  (solDvdaM A P).map (List.map P.powNegCRRA)

/-- Column j of a matrix. -/
def colJ (M : List (List ℚ)) (j : ℕ) : List ℚ := M.map (fun row => row.getD j 0)

/-- `cFuncFxd_now` (`LinearInterpOnInterp1D` of per-share endogenous
interpolants): at (m, z), interpolate over the share grid the values of
the per-share consumption interpolants at m. -/
def cFuncFxdEval (aGrid : List ℚ) (nvrsM : List (List ℚ))
    (ShareGrid : List ℚ) (m z : ℚ) : ℚ :=
  interpPts (ShareGrid.zip ((List.range ShareGrid.length).map (fun j =>
    interpPts ((mGridAdj aGrid (colJ nvrsM j)).zip (cVals0 (colJ nvrsM j))) m))) z

/-- `dvdsFuncFxd_now`: per-share interpolants of the marginal value of
share (first node value duplicated), combined across the share grid. -/
def dvdsFuncFxdEval (aGrid : List ℚ) (nvrsM dvdsM : List (List ℚ))
    (ShareGrid : List ℚ) (m z : ℚ) : ℚ :=
  interpPts (ShareGrid.zip ((List.range ShareGrid.length).map (fun j =>
    interpPts ((mGridAdj aGrid (colJ nvrsM j)).zip
      ((colJ dvdsM j).headD 0 :: colJ dvdsM j)) m))) z

/-- The Merton-Samuelson return adjustment of this parameterization. -/
def solRadj (A : SolveArgs) (P : SolverParams) : ℚ :=
  R_adj P.pow1mCRRA A.ShareLimit P.Rfree A.RiskyDstn

/-- `MPCminNow` of this parameterization. -/
def solMPCmin (A : SolveArgs) (P : SolverParams) (E : SolverExtras) : ℚ :=
  MPCminNow E.powInvCRRA P.DiscFacEff (solRadj A P) E.MPCminNext

/-- `hNrmNow` of this parameterization. -/
def solHNrm (A : SolveArgs) (P : SolverParams) (E : SolverExtras) : ℚ :=
  hNrmNow E.powCRRA P.PermGroFac A.ShareLimit P.Rfree E.hNrmNext
    (solRadj A P) A.ShockDstn

/-- The solution record assembled on the non-error path. -/
def buildSolution (A : SolveArgs) (P : SolverParams) (E : SolverExtras) :
    PortfolioSolutionE :=
  let I := solPolicyInputs A P E
  let aGrid := aGridSol I
  setAsymptotics
    (mkPortfolioSolution
      (some (FnObj.fn1 (cFuncAdjSol I)))
      (some (FnObj.fn1 (ShareFuncAdjSol I E.decayW)))
      (if A.vFuncBool then some E.vFuncAdjBuilt else some FnObj.nullFunc)
      (some (FnObj.fn1 (fun m => P.powNegCRRA (cFuncAdjSol I m))))
      (some (FnObj.fn2 (cFuncFxdEval aGrid (solNvrsM A P E) A.ShareGrid)))
      (some (FnObj.fn2 (fun _ z => z)))
      (if A.vFuncBool then some E.vFuncFxdBuilt else some FnObj.nullFunc)
      (some (FnObj.fn2 (fun m z =>
        P.powNegCRRA (cFuncFxdEval aGrid (solNvrsM A P E) A.ShareGrid m z))))
      (some (FnObj.fn2 (dvdsFuncFxdEval aGrid (solNvrsM A P E) (solDvdsM A P)
        A.ShareGrid)))
      aGrid (solShareAdjSave A P E) (solEopDvdaAdjSave A P E) A.ShareGrid
      (solEopDvdaFxdSave A P) (solDvdsM A P) (some A.AdjustPrb))
    (solHNrm A P E) (solMPCmin A P E)

/-- `solve_one_period_ConsPortfolio`: the two configuration checks are
performed before any solution construction; on the non-error path the
full solution record is built and returned. -/
def solveOnePeriodConsPortfolio (A : SolveArgs) (P : SolverParams)
    (E : SolverExtras) : Except String PortfolioSolutionE :=
  if A.BoroCnstArt ≠ 0 then
    Except.error "PortfolioConsumerType must have BoroCnstArt=0.0!"
  else if A.DiscreteShareBool && !A.vFuncBool then
    Except.error "PortfolioConsumerType requires vFuncBool to be True when DiscreteShareBool is True!"
  else Except.ok (buildSolution A P E)

/-- C5: the solver raises a configuration error if and only if
BoroCnstArt is not exactly 0 or discrete-share mode is requested without
the value function; each error carries the descriptive message naming
the violated invariant, the borrowing-constraint check runs first, and
on every other input a full solution (and no error) is produced — the
checks precede all construction, so an error path yields no partial
solution. -/
theorem C5_config_errors (A : SolveArgs) (P : SolverParams) (E : SolverExtras) :
    (solveOnePeriodConsPortfolio A P E =
        Except.error "PortfolioConsumerType must have BoroCnstArt=0.0!"
      ↔ A.BoroCnstArt ≠ 0) ∧
    (solveOnePeriodConsPortfolio A P E =
        Except.error "PortfolioConsumerType requires vFuncBool to be True when DiscreteShareBool is True!"
      ↔ A.BoroCnstArt = 0 ∧ A.DiscreteShareBool = true ∧ A.vFuncBool = false) ∧
    (solveOnePeriodConsPortfolio A P E = Except.ok (buildSolution A P E)
      ↔ A.BoroCnstArt = 0 ∧ (A.DiscreteShareBool = true → A.vFuncBool = true)) := by
  unfold solveOnePeriodConsPortfolio
  by_cases h1 : A.BoroCnstArt ≠ 0
  · rw [if_pos h1]
    refine ⟨⟨fun _ => h1, fun _ => rfl⟩, ⟨fun h => ?_, fun h => absurd h.1 h1⟩,
      ⟨fun h => ?_, fun h => absurd h.1 h1⟩⟩
    · exact absurd (Except.error.injEq _ _ ▸ congrArg id h) (by simp)
    · exact absurd h (by simp)
  · rw [if_neg h1]
    push_neg at h1
    by_cases h2 : A.DiscreteShareBool && !A.vFuncBool
    · rw [if_pos h2]
      simp only [Bool.and_eq_true, Bool.not_eq_true'] at h2
      refine ⟨⟨fun h => ?_, fun h => absurd h1 h⟩,
        ⟨fun _ => ⟨h1, h2.1, h2.2⟩, fun _ => rfl⟩,
        ⟨fun h => ?_, fun h => ?_⟩⟩
      · exact absurd (Except.error.injEq _ _ ▸ congrArg id h) (by simp)
      · exact absurd h (by simp)
      · rw [h.2 h2.1] at h2
        exact absurd h2.2 (by simp)
    · rw [if_neg h2]
      have h2' : ¬ (A.DiscreteShareBool = true ∧ A.vFuncBool = false) := by
        intro hc
        exact h2 (by rw [hc.1, hc.2]; rfl)
      refine ⟨⟨fun h => absurd h (by simp), fun h => absurd h1 h⟩,
        ⟨fun h => absurd h (by simp), fun h => absurd ⟨h.2.1, h.2.2⟩ h2'⟩,
        ⟨fun _ => ⟨h1, fun hd => ?_⟩, fun _ => rfl⟩⟩
      rcases Bool.eq_false_or_eq_true A.vFuncBool with hv | hv
      · exact hv
      · exact absurd ⟨hd, hv⟩ h2'


/-- C10: no function-valued field of a constructed solution is ever
None: the constructor replaces every function argument passed as None
with a NullFunc, and when vFuncBool is false the solver fills vFuncAdj
and vFuncFxd with explicit NullFunc placeholders. -/
theorem C10_no_none_function_fields
    (c s v vp cf sf vf dm ds : Option FnObj)
    (ag sa ea sg : List ℚ) (ef df : List (List ℚ)) (ap : Option ℚ) :
    (let sol := mkPortfolioSolution c s v vp cf sf vf dm ds ag sa ea sg ef df ap
     sol.cFuncAdj ≠ none ∧ sol.ShareFuncAdj ≠ none ∧ sol.vFuncAdj ≠ none ∧
     sol.vPfuncAdj ≠ none ∧ sol.cFuncFxd ≠ none ∧ sol.ShareFuncFxd ≠ none ∧
     sol.vFuncFxd ≠ none ∧ sol.dvdmFuncFxd ≠ none ∧ sol.dvdsFuncFxd ≠ none) ∧
    (∀ x : Option FnObj, x = none → fillNull x = some FnObj.nullFunc) ∧
    (∀ (A : SolveArgs) (P : SolverParams) (E : SolverExtras)
      (sol : PortfolioSolutionE), A.vFuncBool = false →
      solveOnePeriodConsPortfolio A P E = Except.ok sol →
      sol.vFuncAdj = some FnObj.nullFunc ∧ sol.vFuncFxd = some FnObj.nullFunc) := by
  refine ⟨⟨?_, ?_, ?_, ?_, ?_, ?_, ?_, ?_, ?_⟩, ?_, ?_⟩
  · cases c <;> simp [mkPortfolioSolution, fillNull]
  · cases s <;> simp [mkPortfolioSolution, fillNull]
  · cases v <;> simp [mkPortfolioSolution, fillNull]
  · cases vp <;> simp [mkPortfolioSolution, fillNull]
  · cases cf <;> simp [mkPortfolioSolution, fillNull]
  · cases sf <;> simp [mkPortfolioSolution, fillNull]
  · cases vf <;> simp [mkPortfolioSolution, fillNull]
  · cases dm <;> simp [mkPortfolioSolution, fillNull]
  · cases ds <;> simp [mkPortfolioSolution, fillNull]
  · intro x hx
    rw [hx]
    rfl
  · intro A P E sol hv hok
    unfold solveOnePeriodConsPortfolio at hok
    split_ifs at hok
    have hsol : sol = buildSolution A P E := (Except.ok.injEq _ _ ▸ hok).symm
    subst hsol
    constructor
    · show (buildSolution A P E).vFuncAdj = some FnObj.nullFunc
      simp [buildSolution, setAsymptotics, mkPortfolioSolution, hv, fillNull]
    · show (buildSolution A P E).vFuncFxd = some FnObj.nullFunc
      simp [buildSolution, setAsymptotics, mkPortfolioSolution, hv, fillNull]

/-- Concrete solver inputs with vFuncBool = false and a valid
configuration. -/
def c10A : SolveArgs :=
  ⟨0, false, false, false, 1, 1/2, [1], [0, 1], [(1, ⟨1, 1⟩)], [(1, 2)],
   [(1, ⟨1, 1, 2⟩)], 1/10⟩

def c10P : SolverParams :=
  ⟨1, 1, 1, 1, id, id, fun m => m, fun m z => m + z, fun m z => m - z,
   fun m => m, fun m z => m * z⟩

def c10E : SolverExtras :=
  ⟨id, id, id, 1, 0, fun _ => 1/2, FnObj.nullFunc, FnObj.nullFunc⟩

theorem C10_no_none_function_fields_witness :
    (mkPortfolioSolution none none none none none none none none none
      [] [] [] [] [] [] none).vFuncAdj ≠ none ∧
    fillNull none = some FnObj.nullFunc ∧
    (buildSolution c10A c10P c10E).vFuncAdj = some FnObj.nullFunc ∧
    (buildSolution c10A c10P c10E).vFuncFxd = some FnObj.nullFunc := by
  have h := C10_no_none_function_fields none none none none none none none
    none none [] [] [] [] [] [] none
  have h3 := h.2.2 c10A c10P c10E (buildSolution c10A c10P c10E) rfl rfl
  exact ⟨h.1.2.2.1, h.2.1 none rfl, h3.1, h3.2⟩

/-- Concrete solver inputs violating the borrowing-constraint check. -/
def c5A : SolveArgs :=
  ⟨1, false, false, false, 1, 1/2, [1], [0, 1], [(1, ⟨1, 1⟩)], [(1, 2)],
   [(1, ⟨1, 1, 2⟩)], 1/10⟩

theorem C5_config_errors_witness :
    solveOnePeriodConsPortfolio c5A c10P c10E =
      Except.error "PortfolioConsumerType must have BoroCnstArt=0.0!" :=
  (C5_config_errors c5A c10P c10E).1.mpr (by norm_num [c5A])

/-!
## Stored auxiliary arrays (C9)
-/

/-- Concrete solver inputs for evaluating the stored auxiliary arrays
(CRRA = 1, so uFunc.der is x⁻¹ and the inverse marginal utility is
x⁻¹; joint path; one share gridpoint; nonzero minimal transitory
shock). -/
def c9A : SolveArgs :=
  ⟨0, true, false, false, 1, 1/2, [1], [0], [(1, ⟨1, 1⟩)], [(1, 2)],
   [(1, ⟨1, 1, 2⟩)], 1/10⟩

def c9P : SolverParams :=
  ⟨1/2, 1, 1, 1, fun x => x⁻¹, fun _ => 1, fun _ => 1, fun m z => m + z,
   fun m z => m - z, fun m => m, fun m z => m * z⟩

def c9E : SolverExtras :=
  ⟨fun x => x⁻¹, id, id, 1, 0, fun _ => 1/2, FnObj.nullFunc, FnObj.nullFunc⟩

/-- C9 (evaluation of the code at a failing input): the stored
`EndOfPrddvda_fxd` array is `uFunc.der` applied to the end-of-period
marginal value `EndOfPrd_dvda` (yielding [[2],[2]] where the marginal
value array itself is [[1/2],[1/2]]), so it does not hold the documented
marginal value of assets; moreover the stored `Share_adj` and
`EndOfPrddvda_adj` arrays each carry one more entry than the asset grid
(the prepended bound/origin values), not one entry per aGrid point. -/
theorem C9_save_points_mismatch :
    solDvdaM c9A c9P = [[1/2], [1/2]] ∧
    solEopDvdaFxdSave c9A c9P = [[2], [2]] ∧
    ¬ solEopDvdaFxdSave c9A c9P = solDvdaM c9A c9P ∧
    (solShareAdjSave c9A c9P c9E).length =
      (aGridSol (solPolicyInputs c9A c9P c9E)).length + 1 ∧
    (solEopDvdaAdjSave c9A c9P c9E).length =
      (aGridSol (solPolicyInputs c9A c9P c9E)).length + 1 := by
  have hdvda : solDvdaM c9A c9P = [[1/2], [1/2]] := by
    norm_num [solDvdaM, solIsZero, boroCnstNatIsZero, listMin, aNrmGridDef,
      EndOfPrd_dvda_joint, calc_mNrm_nextJ, expectedL, c9A, c9P]
  have hnvrs : solNvrsM c9A c9P c9E = [[2], [2]] := by
    rw [solNvrsM, hdvda]
    norm_num [c9E]
  have hdvds : solDvdsM c9A c9P = [[0], [1/2]] := by
    norm_num [solDvdsM, solIsZero, boroCnstNatIsZero, listMin, aNrmGridDef,
      EndOfPrd_dvds_joint, calc_mNrm_nextJ, expectedL, c9A, c9P]
  have hrows : rowsAdj (solPolicyInputs c9A c9P c9E) = [(1, 2), (1, 2)] := by
    have hI : solPolicyInputs c9A c9P c9E =
        ⟨false, false, [0], 1/2, [1], solDvdsM c9A c9P, solVM c9A c9P,
          solNvrsM c9A c9P c9E, 1/10⟩ := by
      norm_num [solPolicyInputs, solIsZero, boroCnstNatIsZero, listMin, c9A]
    rw [rowsAdj, hI]
    norm_num [hdvds, hnvrs, applyZeroAssetFix, shareConsRows, shareConsRow,
      shareIdx, firstCross]
  refine ⟨hdvda, ?_, ?_, ?_, ?_⟩
  · rw [solEopDvdaFxdSave, hdvda]
    norm_num [c9P]
  · rw [solEopDvdaFxdSave, hdvda]
    norm_num [c9P]
  · rw [solShareAdjSave, svalsAdj, hrows]
    norm_num [solPolicyInputs, solIsZero, boroCnstNatIsZero, listMin, c9A,
      shareNodesCont, aGridSol, aNrmGridDef]
  · rw [solEopDvdaAdjSave, cVals0, cvalsAdj, hrows]
    norm_num [solPolicyInputs, solIsZero, boroCnstNatIsZero, listMin, c9A,
      aGridSol, aNrmGridDef]

end ConsPortfolio
